import Mathlib

/-!
Shallow embedding of the response-sanitization and recovery layer of the
ShopSmarter-AI Gemini service module, together with the two session-level
operations built on it.  Strings are modelled as `List Char`; the JavaScript
semantics of `trim`, the three regular-expression passes, `split('\n')`,
`JSON.parse` and strict-mode property assignment are translated operationally.
-/

/-- The left-brace character, kept as a named constant. -/
def lbrace : Char := Char.ofNat 123

/-- The right-brace character, kept as a named constant. -/
def rbrace : Char := Char.ofNat 125

/-- The backtick character, kept as a named constant. -/
def btick : Char := Char.ofNat 96

/-- JavaScript `\s` / `trim` white space (ECMA-262 WhiteSpace ∪ LineTerminator). -/
def isJsWs (c : Char) : Bool :=
  c = ' ' || c = '\t' || c = '\n' || c = '\r' || c = Char.ofNat 11 || c = Char.ofNat 12 ||
  c = Char.ofNat 0xa0 || c = Char.ofNat 0x1680 ||
  (0x2000 ≤ c.toNat && c.toNat ≤ 0x200a) ||
  c = Char.ofNat 0x2028 || c = Char.ofNat 0x2029 || c = Char.ofNat 0x202f ||
  c = Char.ofNat 0x205f || c = Char.ofNat 0x3000 || c = Char.ofNat 0xfeff

/-- ECMA-262 LineTerminator, the positions at which multiline `^`/`$` anchor. -/
def isLineTerm (c : Char) : Bool :=
  c = '\n' || c = '\r' || c = Char.ofNat 0x2028 || c = Char.ofNat 0x2029

/-- JSON (not JavaScript) insignificant white space: space, tab, LF, CR. -/
def isJsonWs (c : Char) : Bool :=
  c = ' ' || c = '\t' || c = '\n' || c = '\r'

/-- ASCII letter, JavaScript `[a-zA-Z]`. -/
def isAlphaJs (c : Char) : Bool :=
  (97 ≤ c.toNat && c.toNat ≤ 122) || (65 ≤ c.toNat && c.toNat ≤ 90)

/-- ASCII digit, JavaScript `\d` / `[0-9]`. -/
def isDigitJs (c : Char) : Bool :=
  48 ≤ c.toNat && c.toNat ≤ 57

/-- JavaScript `\w` / `[a-zA-Z0-9_]`. -/
def isWordChar (c : Char) : Bool :=
  isAlphaJs c || isDigitJs c || c = '_'

/-- JavaScript `[a-zA-Z0-9]`. -/
def isAlnumJs (c : Char) : Bool :=
  isAlphaJs c || isDigitJs c

/-- The character class `[a-zA-Z0-9\s_.-]` appearing in the junk-stripping regex. -/
def isJunkChar (c : Char) : Bool :=
  isAlnumJs c || isJsWs c || c = '_' || c = '.' || c = '-'

/-- `String.prototype.trimStart` on a character list. -/
def jsLTrim (l : List Char) : List Char := l.dropWhile isJsWs

/-- `String.prototype.trimEnd` on a character list. -/
def jsRTrim (l : List Char) : List Char := (l.reverse.dropWhile isJsWs).reverse

/-- `String.prototype.trim` on a character list. -/
def jsTrim (l : List Char) : List Char := jsRTrim (jsLTrim l)

/-- Length of the maximal white-space run at the head (greedy `\s*`). -/
def wsRun (l : List Char) : Nat := (l.takeWhile isJsWs).length

/-- Length of the maximal word-character run at the head (greedy `\w*`). -/
def wordRun (l : List Char) : Nat := (l.takeWhile isWordChar).length

/-- List-level `startsWith`. -/
def startsL (l p : List Char) : Bool := l.take p.length = p

/-- List-level `endsWith`. -/
def endsL (l p : List Char) : Bool := l.drop (l.length - p.length) = p && p.length ≤ l.length

/-- The three-backtick fence marker. -/
def fenceMarker : List Char := [btick, btick, btick]

/--
The whole-string fence-unwrapping step: JavaScript
`match(/^BT BT BT(\w*)?\s*\n?(.*?)\n?\s*BT BT BT$/s)` (BT a backtick) followed by
`if (match && match[2]) saneJsonString = match[2].trim()`.
Backtracking analysis of that pattern: it matches iff the string starts and ends
with disjoint fence markers; the greedy `(\w*)?\s*\n?` consumes the maximal word
run after the opening fence and then the maximal white-space run; the lazy
`(.*?)` then extends to the last non-white-space character before the closing
fence, so group 2 is the region between those points with trailing white space
stripped.  The unwrap fires only when group 2 is non-empty (truthiness test).
-/
def fenceUnwrap (l : List Char) : List Char :=
  if startsL l fenceMarker && endsL l fenceMarker && 6 ≤ l.length then
    let afterOpen := l.drop 3
    let a := wordRun afterOpen + wsRun (afterOpen.drop (wordRun afterOpen))
    let region := (afterOpen.drop a).take (l.length - 6 - a)
    let inner := jsRTrim region
    if inner.isEmpty then l else jsTrim inner
  else l

/-- `$`-anchor test of a multiline regex: end of input or before a LineTerminator. -/
def dollarOk (l : List Char) : Bool :=
  match l with
  | [] => true
  | c :: _ => isLineTerm c

/-- Greedy `\s*` immediately before `$`: longest white-space prefix length whose
remainder satisfies the `$` anchor, trying lengths from `b` downward. -/
def wsThenDollar (l : List Char) : Nat → Option Nat
  | 0 => if dollarOk l then some 0 else none
  | b + 1 => if dollarOk (l.drop (b + 1)) then some (b + 1) else wsThenDollar l b

/-- The tail `\s*,?\s*$` of the placeholder-line regex, with faithful
backtracking priority (outer `\s*` longest first, then the optional comma,
then the inner `\s*` longest first).  Returns the number of characters the
tail consumes. -/
def tailR1 (l : List Char) : Nat → Option Nat
  | 0 =>
    (match l with
     | ',' :: r => match wsThenDollar r (wsRun r) with
       | some b => some (1 + b)
       | none => (wsThenDollar l (wsRun l)).map id
     | _ => (wsThenDollar l (wsRun l)).map id)
  | a + 1 =>
    let l2 := l.drop (a + 1)
    match l2 with
    | ',' :: r =>
      (match wsThenDollar r (wsRun r) with
       | some b => some (a + 1 + 1 + b)
       | none => match wsThenDollar l2 (wsRun l2) with
         | some b => some (a + 1 + b)
         | none => tailR1 l a)
    | _ =>
      match wsThenDollar l2 (wsRun l2) with
      | some b => some (a + 1 + b)
      | none => tailR1 l a

/--
Match of `\s*([a-zA-Z_][a-zA-Z0-9_]*):\s*(\[\]|\x7b\x7d)\s*,?\s*$` at the head of
`l` (the body of "Regex 1" after its `^` anchor).  The leading `\s*` and the
identifier are deterministic under backtracking (a shorter white-space run
leaves a white-space character where the identifier must start, and a shorter
identifier leaves a word character where `:` must appear), while the tail
backtracks via `tailR1`.  Returns the total matched length.
-/
def matchR1 (l : List Char) : Option Nat :=
  let a := wsRun l
  match l.drop a with
  | c :: r1 =>
    if isAlphaJs c || c = '_' then
      let n := (r1.takeWhile isWordChar).length
      match r1.drop n with
      | ':' :: r2 =>
        let b := wsRun r2
        match r2.drop b with
        | c1 :: c2 :: r3 =>
          if (c1 = '[' && c2 = ']') || (c1 = lbrace && c2 = rbrace) then
            match tailR1 r3 (wsRun r3) with
            | some t => some (a + 1 + n + 1 + b + 2 + t)
            | none => none
          else none
        | _ => none
      | _ => none
    else none
  | [] => none

/-- Is a scan position a multiline `^` position, given the previous character? -/
def atLineStart (prev : Option Char) : Bool :=
  match prev with
  | none => true
  | some c => isLineTerm c

/-- The consume decision of one scan step of Regex 1: at a `^` position with
a match of length `m + 1`, consume it (`matchR1` can never return length `0`,
since a match contains at least an identifier, a colon and a bracket pair). -/
def r1consume (prev : Option Char) (l : List Char) : Option Nat :=
  if atLineStart prev then
    match matchR1 l with
    | some (m + 1) => some m
    | some 0 => none
    | none => none
  else none

/-- One global-replace pass of Regex 1 with replacement `''`: scan left to
right, at each `^` position try `matchR1`, and on a match drop the matched
characters and resume after them.  Each step consumes at least one character,
so fuel `length + 1` never runs out. -/
def r1go : Nat → Option Char → List Char → List Char
  | 0, _, l => l
  | _ + 1, _, [] => []
  | fuel + 1, prev, c :: rest =>
    match r1consume prev (c :: rest) with
    | some m => r1go fuel (((c :: rest).take (m + 1)).getLast?) ((c :: rest).drop (m + 1))
    | none => c :: r1go fuel (some c) rest

/-- Regex 1: remove lines (in the backtracking-faithful multiline sense) that
consist of `identifier: []` or `identifier: \x7b\x7d` with optional trailing
comma and white space. -/
def regex1 (l : List Char) : List Char := r1go (l.length + 1) none l

/-- Greedy search, longest first, for the junk body of "Regex 2": from a fixed
first letter, an inner run of `[a-zA-Z0-9\s_.-]` of length `k`, then one
`[a-zA-Z0-9]`, then `\s+` (longest first, at least one), then `"`.  Returns
the length consumed after the first letter. -/
def junkAlt1 (l : List Char) : Nat → Option Nat
  | 0 =>
    (match l with
     | c :: r =>
       if isAlnumJs c then
         match wsRun r with
         | 0 => none
         | w + 1 =>
           match (r.drop (w + 1)).head? with
           | some q => if q = '"' then some (1 + w + 1 + 1) else none
           | none => none
       else none
     | [] => none)
  | k + 1 =>
    let l2 := l.drop (k + 1)
    (match l2 with
     | c :: r =>
       if isAlnumJs c then
         match wsRun r with
         | 0 => junkAlt1 l k
         | w + 1 =>
           match (r.drop (w + 1)).head? with
           | some q => if q = '"' then some (k + 1 + 1 + w + 1 + 1) else junkAlt1 l k
           | none => junkAlt1 l k
       else junkAlt1 l k
     | [] => junkAlt1 l k)

/-- The single-letter alternative of Regex 2's junk group, followed by `\s+"`. -/
def junkAlt2 (l : List Char) : Option Nat :=
  match wsRun l with
  | 0 => none
  | w + 1 =>
    match (l.drop (w + 1)).head? with
    | some q => if q = '"' then some (w + 1 + 1) else none
    | none => none

/--
Match of `\s*([a-zA-Z][a-zA-Z0-9\s_.-]*[a-zA-Z0-9]|[a-zA-Z])\s+(")` at the head
of `l` (the body of "Regex 2" after `^`).  Returns
`(white-space-prefix length, total matched length)`; the replacement `'$1$3'`
keeps the white-space prefix and the quote and deletes the junk between.
-/
def matchR2 (l : List Char) : Option (Nat × Nat) :=
  let a := wsRun l
  match l.drop a with
  | c :: r1 =>
    if isAlphaJs c then
      match junkAlt1 r1 ((r1.takeWhile isJunkChar).length) with
      | some n => some (a, a + 1 + n)
      | none =>
        match junkAlt2 r1 with
        | some n => some (a, a + 1 + n)
        | none => none
    else none
  | [] => none

/-- The consume decision of one scan step of Regex 2 (a match always has
positive length, holding at least a letter and a quote). -/
def r2consume (prev : Option Char) (l : List Char) : Option (Nat × Nat) :=
  if atLineStart prev then
    match matchR2 l with
    | some (a, m + 1) => some (a, m)
    | some (_, 0) => none
    | none => none
  else none

/-- One global-replace pass of Regex 2 with replacement `'$1$3'`: keep the
captured white-space prefix and the quote, drop the junk between. -/
def r2go : Nat → Option Char → List Char → List Char
  | 0, _, l => l
  | _ + 1, _, [] => []
  | fuel + 1, prev, c :: rest =>
    match r2consume prev (c :: rest) with
    | some (a, m) =>
      (c :: rest).take a ++ '"' :: r2go fuel (some '"') ((c :: rest).drop (m + 1))
    | none => c :: r2go fuel (some c) rest

/-- Regex 2: strip unquoted junk text prepended to a quoted string. -/
def regex2 (l : List Char) : List Char := r2go (l.length + 1) none l

/-- `String.prototype.split('\n')` on a character list. -/
def splitNl (l : List Char) : List (List Char) :=
  match l with
  | [] => [[]]
  | c :: rest =>
    let tl := splitNl rest
    if c = '\n' then [] :: tl
    else match tl with
      | h :: t => (c :: h) :: t
      | [] => [[c]]

/-- Join with `'\n'`, the inverse of `splitNl`. -/
def joinNl (ls : List (List Char)) : List Char :=
  match ls with
  | [] => []
  | [h] => h
  | h :: t => h ++ '\n' :: joinNl t

/-- The bare-literal test `^(true|false|-?\d+(\.\d+)?([eE][+-]?\d+)?)$` used by
the line filter. -/
def isBareLiteral (t : List Char) : Bool :=
  if t = String.toList "true" || t = String.toList "false" then true
  else
    let l1 := match t with | '-' :: r => r | _ => t
    let d1 := l1.takeWhile isDigitJs
    if d1.isEmpty then false
    else
      let l2 := l1.drop d1.length
      let l3 :=
        match l2 with
        | '.' :: r =>
          let d2 := r.takeWhile isDigitJs
          if d2.isEmpty then none else some (r.drop d2.length)
        | _ => some l2
      match l3 with
      | none => false
      | some l4 =>
        match l4 with
        | [] => true
        | e :: r =>
          if e = 'e' || e = 'E' then
            let r2 := match r with | '+' :: rr => rr | '-' :: rr => rr | _ => r
            let d3 := r2.takeWhile isDigitJs
            !d3.isEmpty && (r2.drop d3.length).isEmpty
          else false

/-- Does the trimmed line contain the exact three-character substring `":"`? -/
def hasColonQuote : List Char → Bool
  | '"' :: ':' :: '"' :: _ => true
  | _ :: rest => hasColonQuote rest
  | [] => false

/-- The line-classification predicate of the filter pass, applied to one line. -/
def keepLine (line : List Char) : Bool :=
  let t := jsTrim line
  if t.isEmpty then true
  else if (match t.head? with
           | some c => c = lbrace || c = rbrace || c = '[' || c = ']' || c = ',' || c = '"'
           | none => false) then true
  else if (match t.getLast? with
           | some c => c = lbrace || c = rbrace || c = '[' || c = ']' || c = ','
           | none => false) then true
  else if hasColonQuote t && decide (t.indexOf '"' < (t.length - 1 - t.reverse.indexOf '"')) then true
  else if t.any isAlphaJs then isBareLiteral t
  else true

/-- The filter pass: split on `'\n'`, keep the lines `keepLine` accepts, join. -/
def filterLines (l : List Char) : List Char :=
  joinNl ((splitNl l).filter keepLine)

/-- One step of the global replace of `/\n\s*\n/g` by `'\n'`: at a `'\n'`, the
greedy `\s*` extends to the last LF inside the following white-space run. -/
def lastNlInRun (l : List Char) : Nat → Option Nat
  | 0 => none
  | k + 1 => if l.get? k = some '\n' then some k else lastNlInRun l k

/-- `replace(/\n\s*\n/g, '\n')`: collapse blank-line runs. -/
def collapseNl : Nat → List Char → List Char
  | 0, l => l
  | _ + 1, [] => []
  | fuel + 1, c :: rest =>
    if c = '\n' then
      match lastNlInRun rest (wsRun rest) with
      | some k => '\n' :: collapseNl fuel (rest.drop (k + 1))
      | none => '\n' :: collapseNl fuel rest
    else c :: collapseNl fuel rest

/-- The whole sanitization stage of `sanitizeAndParseJson`, on character lists:
trim, fence unwrap, Regex 1, Regex 2, line filter, blank-line collapse, trim. -/
def sanitizeL (l : List Char) : List Char :=
  let s1 := jsTrim l
  let s2 := fenceUnwrap s1
  let s3 := regex1 s2
  let s4 := regex2 s3
  let s5 := filterLines s4
  let s6 := collapseNl (s5.length + 1) s5
  jsTrim s6

/-- The sanitization stage on `String`s. -/
def sanitize (s : String) : String := String.mk (sanitizeL s.toList)

/-!
## The JavaScript value model and `JSON.parse`

A JavaScript array can carry named properties besides its elements (the code
assigns `.similarProducts` onto whatever `JSON.parse` returned), so the array
constructor carries a property list, empty for freshly parsed arrays.  Objects
keep insertion order with last-write-wins on duplicate keys, as ECMA-262
prescribes for `JSON.parse`.  A number is kept as the exact decimal
`m * 10 ^ e` of its spelling (unnormalized); the claims below never compare
two different spellings of one number, so neither the missing normalization
nor the missing round-to-double step is observable in them.
-/

inductive JsVal where
  | null : JsVal
  | bool (b : Bool) : JsVal
  | num (m : Int) (e : Int) : JsVal
  | str (s : String) : JsVal
  | arr (elems : List JsVal) (props : List (String × JsVal)) : JsVal
  | obj (props : List (String × JsVal)) : JsVal

/-- Property write into a property list: overwrite in place if the key exists
(keeping its position), otherwise append. -/
def insertJs (l : List (String × JsVal)) (k : String) (v : JsVal) : List (String × JsVal) :=
  if l.any (fun p => p.1 = k) then l.map (fun p => if p.1 = k then (k, v) else p)
  else l ++ [(k, v)]

/-- Property read (`x.k`): `none` models the JavaScript `undefined`. -/
def getF (x : JsVal) (k : String) : Option JsVal :=
  match x with
  | .obj ps => (ps.find? (fun p => p.1 = k)).map (fun p => p.2)
  | .arr _ ps => (ps.find? (fun p => p.1 = k)).map (fun p => p.2)
  | _ => none

/-- Strict-mode property write (`x.k = v`): objects and arrays accept it; a
write on a primitive throws a `TypeError` (ES modules are always strict). -/
def setF (x : JsVal) (k : String) (v : JsVal) : Except String JsVal :=
  match x with
  | .obj ps => .ok (.obj (insertJs ps k v))
  | .arr es ps => .ok (.arr es (insertJs ps k v))
  | _ => .error "Cannot create property on a primitive value"

/-- JavaScript truthiness of a parsed value. -/
def jsTruthy (x : JsVal) : Bool :=
  match x with
  | .null => false
  | .bool b => b
  | .num m _ => !(m = 0)
  | .str s => !(s = "")
  | .arr _ _ => true
  | .obj _ => true

/-- JSON insignificant-white-space skipping. -/
def skipW (l : List Char) : List Char := l.dropWhile isJsonWs

/-- Hexadecimal digit value. -/
def hexVal (c : Char) : Option Nat :=
  if '0' ≤ c && c ≤ '9' then some (c.toNat - 48)
  else if 'a' ≤ c && c ≤ 'f' then some (c.toNat - 87)
  else if 'A' ≤ c && c ≤ 'F' then some (c.toNat - 55)
  else none

/-- Body of a JSON string after the opening quote: consumes through the closing
quote, decoding escapes; rejects raw control characters.  A `\u` escape naming
a surrogate code unit is rejected here (Lean characters are scalar values);
no claim exercises that corner. -/
def parseStrBody : Nat → List Char → Option (List Char × List Char)
  | 0, _ => none
  | _ + 1, [] => none
  | fuel + 1, c :: r =>
    if c = '"' then some ([], r)
    else if c = '\\' then
      match r with
      | [] => none
      | e :: r2 =>
        if e = '"' || e = '\\' || e = '/' then
          (fun p => (e :: p.1, p.2)) <$> parseStrBody fuel r2
        else if e = 'b' then (fun p => (Char.ofNat 8 :: p.1, p.2)) <$> parseStrBody fuel r2
        else if e = 'f' then (fun p => (Char.ofNat 12 :: p.1, p.2)) <$> parseStrBody fuel r2
        else if e = 'n' then (fun p => ('\n' :: p.1, p.2)) <$> parseStrBody fuel r2
        else if e = 'r' then (fun p => ('\r' :: p.1, p.2)) <$> parseStrBody fuel r2
        else if e = 't' then (fun p => ('\t' :: p.1, p.2)) <$> parseStrBody fuel r2
        else if e = 'u' then
          match r2 with
          | h1 :: h2 :: h3 :: h4 :: r3 =>
            match hexVal h1, hexVal h2, hexVal h3, hexVal h4 with
            | some a, some b, some c2, some d =>
              let n := ((a * 16 + b) * 16 + c2) * 16 + d
              if 0xd800 ≤ n && n ≤ 0xdfff then none
              else (fun p => (Char.ofNat n :: p.1, p.2)) <$> parseStrBody fuel r3
            | _, _, _, _ => none
          | _ => none
        else none
    else if c.toNat < 32 then none
    else (fun p => (c :: p.1, p.2)) <$> parseStrBody fuel r

/-- Decimal digits to a natural number. -/
def digitsToNat (ds : List Char) : Nat := ds.foldl (fun a c => a * 10 + (c.toNat - 48)) 0

/-- A JSON number token at the head of the input: `-?(0|[1-9][0-9]*)` with
optional fraction and exponent, mapped to the exact decimal `m * 10 ^ e`. -/
def parseNum (l : List Char) : Option ((Int × Int) × List Char) :=
  let p := match l with
    | '-' :: r => (true, r)
    | _ => (false, l)
  match p.2 with
  | c :: r =>
    if !(isDigitJs c) then none
    else
      let ip := if c = '0' then ([c], r)
                else (c :: r.takeWhile isDigitJs, r.dropWhile isDigitJs)
      let fr : Option (List Char × List Char) :=
        match ip.2 with
        | '.' :: r2 =>
          let fd := r2.takeWhile isDigitJs
          if fd.isEmpty then none else some (fd, r2.dropWhile isDigitJs)
        | _ => some ([], ip.2)
      match fr with
      | none => none
      | some (fd, l3) =>
        let ex : Option (Int × List Char) :=
          match l3 with
          | e :: r3 =>
            if e = 'e' || e = 'E' then
              let sp : Int × List Char := match r3 with
                | '+' :: rr => (1, rr)
                | '-' :: rr => (-1, rr)
                | _ => (1, r3)
              let ed := sp.2.takeWhile isDigitJs
              if ed.isEmpty then none
              else some (sp.1 * (digitsToNat ed : Int), sp.2.dropWhile isDigitJs)
            else some (0, l3)
          | [] => some (0, [])
        match ex with
        | none => none
        | some (e, l4) =>
          let mag : Int := ((digitsToNat ip.1) * 10 ^ fd.length + digitsToNat fd : Nat)
          let mant : Int := if p.1 then -mag else mag
          some ((mant, e - (fd.length : Int)), l4)
  | [] => none

mutual

/-- A JSON value at the head of the input (leading white space already
skipped by the caller), returning the value and the unconsumed remainder. -/
def parseV : Nat → List Char → Option (JsVal × List Char)
  | 0, _ => none
  | fuel + 1, l =>
    match l with
    | [] => none
    | c :: r =>
      if c = lbrace then
        match skipW r with
        | c2 :: r2 =>
          if c2 = rbrace then some (.obj [], r2)
          else
            match parseMems fuel (c2 :: r2) [] with
            | some (ps, rest) => some (.obj ps, rest)
            | none => none
        | [] => none
      else if c = '[' then
        match skipW r with
        | ']' :: r2 => some (.arr [] [], r2)
        | l2 =>
          match parseElems fuel l2 [] with
          | some (es, rest) => some (.arr es [], rest)
          | none => none
      else if c = '"' then
        match parseStrBody (r.length + 1) r with
        | some (cs, rest) => some (.str (String.mk cs), rest)
        | none => none
      else if c = 't' then
        if l.take 4 = String.toList "true" then some (.bool true, l.drop 4) else none
      else if c = 'f' then
        if l.take 5 = String.toList "false" then some (.bool false, l.drop 5) else none
      else if c = 'n' then
        if l.take 4 = String.toList "null" then some (.null, l.drop 4) else none
      else if c = (Char.ofNat 45) || isDigitJs c then
        match parseNum l with
        | some (q, rest) => some (.num q.1 q.2, rest)
        | none => none
      else none

/-- Object members from the first key position through the closing brace. -/
def parseMems : Nat → List Char → List (String × JsVal) →
    Option (List (String × JsVal) × List Char)
  | 0, _, _ => none
  | fuel + 1, l, acc =>
    match l with
    | '"' :: r =>
      match parseStrBody (r.length + 1) r with
      | some (kcs, r1) =>
        match skipW r1 with
        | ':' :: r2 =>
          match parseV fuel (skipW r2) with
          | some (v, r3) =>
            let acc2 := insertJs acc (String.mk kcs) v
            match skipW r3 with
            | ',' :: r4 => parseMems fuel (skipW r4) acc2
            | c5 :: r5 => if c5 = rbrace then some (acc2, r5) else none
            | [] => none
          | none => none
        | _ => none
      | none => none
    | _ => none

/-- Array elements from the first value position through the closing bracket. -/
def parseElems : Nat → List Char → List JsVal → Option (List JsVal × List Char)
  | 0, _, _ => none
  | fuel + 1, l, acc =>
    match parseV fuel l with
    | some (v, r) =>
      match skipW r with
      | ',' :: r2 => parseElems fuel (skipW r2) (acc ++ [v])
      | ']' :: r2 => some (acc ++ [v], r2)
      | _ => none
    | none => none

end

/-- Strict `JSON.parse` on a text whose ends are already trimmed: skip leading
JSON white space, one value, and the remainder may hold only JSON white space. -/
def coreParse (t : List Char) : Option JsVal :=
  match parseV (t.length + 2) (skipW t) with
  | some (v, r) => if r.all isJsonWs then some v else none
  | none => none

/-- `JSON.parse` on a character list.  The outer `jsTrim` widens edge white
space from JSON's four characters to JavaScript's full set; every call the
pipeline makes hands this function a JavaScript-trimmed string or an
extraction ending in a closing brace/bracket, on which the two sets agree. -/
def jsonParseL (l : List Char) : Option JsVal := coreParse (jsTrim l)

/-- `JSON.parse` on a `String`. -/
def jsonParse (s : String) : Option JsVal := jsonParseL s.toList

/-!
## The structural extractor (brace/bracket-counting fallback)
-/

/-- The scanner state of the fallback loop: inside-string flag, pending
escape flag, and the signed nesting count of the expected bracket pair. -/
structure MSt where
  inStr : Bool
  esc : Bool
  depth : Int
deriving DecidableEq

/-- One character step of the fallback scanner: an escaped character is
skipped; a backslash arms the escape flag (even outside a string, as in the
source); an unescaped quote toggles the string flag; outside a string the
expected opening/closing character moves the count. -/
def mstep (o c : Char) (st : MSt) (ch : Char) : MSt :=
  if st.esc then { st with esc := false }
  else if ch = '\\' then { st with esc := true }
  else
    let inStr2 := if ch = '"' then !st.inStr else st.inStr
    let depth2 :=
      if !inStr2 && ch = o then st.depth + 1
      else if !inStr2 && ch = c then st.depth - 1
      else st.depth
    { inStr := inStr2, esc := false, depth := depth2 }

/-- Run the scanner over a list of characters. -/
def runM (o c : Char) (st : MSt) (l : List Char) : MSt := l.foldl (mstep o c) st

/-- The inner rescan of the source: from index 0 up to `i`, look for the
expected opening character, giving up at the first character that is neither
it nor one of the four literal white-space characters the code lists. -/
def ifGo (o : Char) : List Char → Bool
  | [] => false
  | ch :: r =>
    if ch = o then true
    else if ch = ' ' || ch = '\n' || ch = '\r' || ch = '\t' then ifGo o r
    else false

/-- `initialStructuralCharFound` at loop index `i`. -/
def initialFound (full : List Char) (o : Char) (i : Nat) : Bool :=
  ifGo o (full.take (i + 1))

/-- The brace/bracket-counting loop.  The zero test is skipped on iterations
consumed by the escape logic, exactly as the `continue`s in the source skip
it; on a passing test the loop ends and reports the exclusive end index. -/
def exLoop (o c : Char) (full : List Char) : List Char → Nat → MSt → Option Nat
  | [], _, _ => none
  | ch :: rest, i, st =>
    let st2 := mstep o c st ch
    if !st.esc && !(ch = '\\') && st2.depth = 0 && initialFound full o i then some (i + 1)
    else exLoop o c full rest (i + 1) st2

/-- The whole fallback: dispatch on the first non-white-space character and,
for a JSON-shaped head, run the counting loop and cut the prefix it found. -/
def extractRegion (z : List Char) : Option (List Char) :=
  match (jsLTrim z).head? with
  | some c0 =>
    if c0 = lbrace then (exLoop lbrace rbrace z z 0 ⟨false, false, 0⟩).map z.take
    else if c0 = '[' then (exLoop '[' ']' z z 0 ⟨false, false, 0⟩).map z.take
    else none
  | none => none

/-!
## `sanitizeAndParseJson` and the two session operations
-/

/-- What `sanitizeAndParseJson` does after sanitizing: strict parse, and on
failure the structural-extractor fallback; every failure path yields `none`
(the JavaScript `return null`). -/
def afterSanitize (sane : List Char) : Option JsVal :=
  match jsonParseL sane with
  | some v => some v
  | none =>
    if sane.isEmpty then none
    else
      match extractRegion sane with
      | some sub => jsonParseL sub
      | none => none

/-- The full parse pipeline of `sanitizeAndParseJson` on character lists. -/
def sanitizeAndParseJsonL (l : List Char) : Option JsVal :=
  afterSanitize (sanitizeL l)

/-- `sanitizeAndParseJson` on `String`s.  The type parameter `T` of the source
is a bare cast and performs no validation, so the result is an untyped value. -/
def sanitizeAndParseJson (s : String) : Option JsVal := sanitizeAndParseJsonL s.toList

/-- The specification's name for the same contract. -/
def parseModelJson (s : String) : Option JsVal := sanitizeAndParseJson s

/-- The JavaScript value a caller observes: the absent outcome is `null`. -/
def jsValueOf (x : Option JsVal) : JsVal :=
  match x with
  | some v => v
  | none => JsVal.null

/-- The message of the error thrown when the parse result is falsy. -/
def failedParseMsg : String := "Failed to parse Gemini response or response was empty."

/-- The structured error response built in the `catch` of
`analyzeImageAndSuggestProducts`. -/
def errorResponseJs (msg : String) : JsVal :=
  .obj [("analysis",
          .str ("Error during analysis: " ++ msg ++ ". Please try a different image or prompt.")),
        ("similarProducts", .arr [] []),
        ("complementaryProducts", .arr [] [])]

/-- `x || []` on an optional property value. -/
def orEmptyArr (x : Option JsVal) : JsVal :=
  match x with
  | some v => if jsTruthy v then v else .arr [] []
  | none => .arr [] []

/-- `analyzeImageAndSuggestProducts`, shallowly embedded over the outcome of
the awaited model invocation: `.error e` is a thrown transport/model failure
with message `e`, `.ok text` is a response whose `.text` is `text`.  The
`try`/`catch` of the source becomes the explicit error plumbing: a falsy parse
result throws the parse-failure error, a strict-mode write on a primitive
throws a `TypeError`, and every thrown error lands in `errorResponseJs`.
`analyzeOk` is the body after the model call returned text. -/
def analyzeOk (parsed : Option JsVal) : JsVal :=
  match parsed with
  | none => errorResponseJs failedParseMsg
  | some p =>
    if !jsTruthy p then errorResponseJs failedParseMsg
    else
      match setF p "similarProducts" (orEmptyArr (getF p "similarProducts")) with
      | .error m => errorResponseJs m
      | .ok p2 =>
        match setF p2 "complementaryProducts" (orEmptyArr (getF p2 "complementaryProducts")) with
        | .error m => errorResponseJs m
        | .ok p3 => p3

def analyzeImageAndSuggestProducts (modelResult : Except String String) : JsVal :=
  match modelResult with
  | .error e => errorResponseJs e
  | .ok text => analyzeOk (sanitizeAndParseJson text)

/-- `sendMessageInChat`, shallowly embedded over the outcome of the awaited
`chat.sendMessage` call. -/
def sendMessageInChat (modelResult : Except String String) : String :=
  match modelResult with
  | .ok t => t
  | .error e => "I apologize, but I encountered an error: " ++ e

/-!
## Shared lemmas about trimming and the pipeline
-/

theorem head?_dropWhile_not {p : Char → Bool} {l : List Char} {c : Char}
    (h : (l.dropWhile p).head? = some c) : p c = false := by
  induction l with
  | nil => simp [List.dropWhile] at h
  | cons a t ih =>
    rw [List.dropWhile_cons] at h
    by_cases hp : p a
    · rw [if_pos hp] at h; exact ih h
    · rw [if_neg hp] at h
      simp only [List.head?_cons, Option.some.injEq] at h
      subst h; simpa using hp

theorem dropWhile_eq_self_of_head {p : Char → Bool} {l : List Char}
    (h : ∀ c, l.head? = some c → p c = false) : l.dropWhile p = l := by
  cases l with
  | nil => rfl
  | cons a t =>
    rw [List.dropWhile_cons, if_neg]
    simp [h a rfl]

theorem jsRTrim_append_ws (l : List Char) :
    ∃ t, l = jsRTrim l ++ t ∧ ∀ c ∈ t, isJsWs c = true := by
  refine ⟨(l.reverse.takeWhile isJsWs).reverse, ?_, ?_⟩
  · conv_lhs =>
      rw [← l.reverse_reverse,
        ← List.takeWhile_append_dropWhile (p := isJsWs) (l := l.reverse),
        List.reverse_append]
    rfl
  · intro c hc
    rw [List.mem_reverse] at hc
    exact List.mem_takeWhile_imp hc

theorem jsRTrim_getLast_not_ws {l : List Char} {c : Char}
    (h : (jsRTrim l).getLast? = some c) : isJsWs c = false := by
  have : (jsRTrim l).getLast? = (l.reverse.dropWhile isJsWs).head? := by
    rw [jsRTrim, List.getLast?_reverse]
  rw [this] at h
  exact head?_dropWhile_not h

theorem jsRTrim_eq_self_of_getLast {l : List Char}
    (h : ∀ c, l.getLast? = some c → isJsWs c = false) : jsRTrim l = l := by
  rw [jsRTrim, dropWhile_eq_self_of_head, List.reverse_reverse]
  intro c hc
  rw [List.head?_reverse] at hc
  exact h c hc

theorem jsRTrim_idem (l : List Char) : jsRTrim (jsRTrim l) = jsRTrim l :=
  jsRTrim_eq_self_of_getLast (fun _ hc => jsRTrim_getLast_not_ws hc)

theorem jsRTrim_head? (l : List Char) (h : jsRTrim l ≠ []) :
    (jsRTrim l).head? = l.head? := by
  obtain ⟨t, ht, -⟩ := jsRTrim_append_ws l
  conv_rhs => rw [ht]
  rw [List.head?_append]
  cases hh : (jsRTrim l).head? with
  | none => exact absurd (List.head?_eq_none_iff.mp hh) h
  | some c => rfl

theorem jsLTrim_head_not_ws {l : List Char} {c : Char}
    (h : (jsLTrim l).head? = some c) : isJsWs c = false :=
  head?_dropWhile_not h

theorem jsTrim_idem (l : List Char) : jsTrim (jsTrim l) = jsTrim l := by
  rw [jsTrim, jsTrim]
  by_cases hnil : jsRTrim (jsLTrim l) = []
  · rw [hnil]; rfl
  · have hhead : jsLTrim (jsRTrim (jsLTrim l)) = jsRTrim (jsLTrim l) := by
      apply dropWhile_eq_self_of_head
      intro c hc
      rw [jsRTrim_head? _ hnil] at hc
      exact jsLTrim_head_not_ws hc
    rw [hhead, jsRTrim_idem]

theorem jsTrim_of_all_ws {l : List Char} (h : ∀ c ∈ l, isJsWs c = true) :
    jsTrim l = [] := by
  have : jsLTrim l = [] := List.dropWhile_eq_nil_iff.mpr fun x hx => h x hx
  rw [jsTrim, this]; rfl

theorem sanitizeL_of_trim_nil {l : List Char} (h : jsTrim l = []) :
    sanitizeL l = [] := by
  show jsTrim (collapseNl _ (filterLines (regex2 (regex1 (fenceUnwrap (jsTrim l)))))) = []
  rw [h]
  rfl

/-- The sanitized text is always a fixed point of `jsTrim`. -/
theorem sanitizeL_trimmed (l : List Char) : jsTrim (sanitizeL l) = sanitizeL l := by
  show jsTrim (jsTrim _) = jsTrim _
  exact jsTrim_idem _

/-!
## Observers used in claim statements
-/

/-- Is a value a JavaScript array? -/
def isArrV : JsVal → Bool
  | .arr _ _ => true
  | _ => false

/-- Is a value a JavaScript (non-array) object? -/
def isObjV : JsVal → Bool
  | .obj _ => true
  | _ => false

/-- Substring test on character lists. -/
def hasSub (pat : List Char) : List Char → Bool
  | [] => pat.isEmpty
  | c :: rest => startsL (c :: rest) pat || hasSub pat rest

/-!
## C1 — errors become data at the session boundary
-/

/-- C1: for the two documented failure kinds the session operations resolve
with data instead of an exception.  A transport/model failure `e` thrown
inside `analyzeImageAndSuggestProducts` produces a response whose `analysis`
is a non-empty string containing `e` and whose product fields are present
empty arrays; a parse failure (falsy parse outcome, which raises the
parse-failure error into the same `catch`) produces that shape for the
parse-failure message; a failure `e` in `sendMessageInChat` produces the
apology string containing `e`.  Both embedded functions are total, which is
the never-throws/never-rejects half of the claim. -/
theorem C1_errors_become_data :
    (∀ e : String,
      getF (analyzeImageAndSuggestProducts (.error e)) "analysis" =
        some (.str ("Error during analysis: " ++ e ++
          ". Please try a different image or prompt."))
      ∧ ("Error during analysis: " ++ e ++ ". Please try a different image or prompt.") ≠ ""
      ∧ (∃ pre post : String,
          ("Error during analysis: " ++ e ++ ". Please try a different image or prompt.")
            = pre ++ e ++ post)
      ∧ getF (analyzeImageAndSuggestProducts (.error e)) "similarProducts" = some (.arr [] [])
      ∧ getF (analyzeImageAndSuggestProducts (.error e)) "complementaryProducts" =
          some (.arr [] []))
    ∧ (∀ t : String, jsTruthy (jsValueOf (sanitizeAndParseJson t)) = false →
        analyzeImageAndSuggestProducts (.ok t) = errorResponseJs failedParseMsg)
    ∧ (∀ e : String,
        sendMessageInChat (.error e) = "I apologize, but I encountered an error: " ++ e
        ∧ ∃ pre post : String, sendMessageInChat (.error e) = pre ++ e ++ post) := by
  refine ⟨fun e => ⟨rfl, ?_, ⟨"Error during analysis: ",
      ". Please try a different image or prompt.", rfl⟩, rfl, rfl⟩, ?_, fun e => ⟨rfl,
      ⟨"I apologize, but I encountered an error: ", "", ?_⟩⟩⟩
  · intro h
    have := congrArg String.length h
    simp [String.length_append] at this
    exact absurd this.2 (by decide)
  · intro t h
    show analyzeOk (sanitizeAndParseJson t) = _
    cases hp : sanitizeAndParseJson t with
    | none => rfl
    | some v =>
      rw [hp] at h
      simp only [jsValueOf] at h
      show (if !jsTruthy v then _ else _) = _
      rw [h]
      rfl
  · show _ = _ ++ ""
    exact (String.append_empty _).symm

/-- Witness for C1 at concrete inputs. -/
theorem C1_witness :
    jsTruthy (jsValueOf (sanitizeAndParseJson "")) = false
    ∧ analyzeImageAndSuggestProducts (.ok "") = errorResponseJs failedParseMsg
    ∧ sendMessageInChat (.error "boom") = "I apologize, but I encountered an error: " ++ "boom" :=
  ⟨rfl, C1_errors_become_data.2.1 "" rfl, (C1_errors_become_data.2.2 "boom").1⟩

/-!
## C10 — the returned value is a bare cast of whatever parsed
-/

/-- Structure of a successful pipeline outcome: it came from the strict
parse of the sanitized text or from the parse of the extracted substring. -/
theorem afterSanitize_cases {sane : List Char} {v : JsVal}
    (h : afterSanitize sane = some v) :
    jsonParseL sane = some v
    ∨ ∃ sub, extractRegion sane = some sub ∧ jsonParseL sub = some v := by
  unfold afterSanitize at h
  cases hj : jsonParseL sane with
  | some w => rw [hj] at h; exact Or.inl h
  | none =>
    rw [hj] at h
    by_cases he : sane.isEmpty
    · simp [he] at h
    · cases hx : extractRegion sane with
      | some sub =>
        right
        refine ⟨sub, rfl, ?_⟩
        rw [hx] at h
        simpa [he] using h
      | none => rw [hx] at h; simp [he] at h

set_option maxHeartbeats 1000000 in
/-- C10: `sanitizeAndParseJson` validates nothing against the target shape:
every non-absent result is exactly what `JSON.parse` produced on the
sanitized text or on the extracted substring; in particular input `"5"`
yields the number `5` as a successful parse, which is not an object. -/
theorem C10_result_is_bare_cast :
    (∀ s : String, ∀ v : JsVal, sanitizeAndParseJson s = some v →
      jsonParseL (sanitizeL s.toList) = some v
      ∨ ∃ sub, extractRegion (sanitizeL s.toList) = some sub ∧ jsonParseL sub = some v)
    ∧ sanitizeAndParseJson "5" = some (.num 5 0)
    ∧ isObjV (jsValueOf (sanitizeAndParseJson "5")) = false :=
  ⟨fun _ _ h => afterSanitize_cases h, rfl, rfl⟩

/-- Witness for C10 at the concrete input `"5"`. -/
theorem C10_witness :
    jsonParseL (sanitizeL ("5" : String).toList) = some (.num 5 0)
    ∨ ∃ sub, extractRegion (sanitizeL ("5" : String).toList) = some sub
        ∧ jsonParseL sub = some (.num 5 0) :=
  C10_result_is_bare_cast.1 "5" (.num 5 0) rfl

/-!
## C4 — totality and the absent outcome on empty input
-/

/-- C4: the parse pipeline is total — on every input it returns a decoded
value or the absent outcome, never an exception (totality of the embedded
function); on the empty string and on white-space-only strings it returns
absent. -/
theorem C4_never_throws :
    (∀ s : String, sanitizeAndParseJson s = none ∨ ∃ v, sanitizeAndParseJson s = some v)
    ∧ (∀ s : String, (∀ c ∈ s.toList, isJsWs c = true) → parseModelJson s = none)
    ∧ parseModelJson "" = none := by
  refine ⟨?_, ?_, rfl⟩
  · intro s
    cases h : sanitizeAndParseJson s with
    | none => exact Or.inl rfl
    | some v => exact Or.inr ⟨v, rfl⟩
  · intro s h
    show afterSanitize (sanitizeL s.toList) = none
    rw [sanitizeL_of_trim_nil (jsTrim_of_all_ws h)]
    rfl

/-- Witness for C4 at a white-space-only input. -/
theorem C4_witness :
    (∀ c ∈ ("  \n " : String).toList, isJsWs c = true) ∧ parseModelJson "  \n " = none :=
  ⟨by decide, C4_never_throws.2.1 "  \n " (by decide)⟩

/-!
## C6 — sanitization is not idempotent
-/

/-- An input whose first sanitization pass exposes a new whole-string fence:
a fenced block whose content is itself a fenced block. -/
def nestedFence : String := "```json\n```\n\x7b\x7d\n```\n```"

/-- C6 counterexample: sanitizing `nestedFence` once yields a string that is
again fence-wrapped, so a second sanitization differs from the first —
`sanitize` is not idempotent as claimed. -/
theorem C6_counterexample : sanitize (sanitize nestedFence) ≠ sanitize nestedFence := by
  decide

/-- C6 (amended): idempotence fails in general, because unwrapping a
whole-string fence (or stripping junk, or dropping lines) can produce a
string on which the sanitizer acts again; it holds exactly on the fixed
points of `sanitize`: a second pass changes nothing when the first pass
changed nothing. -/
theorem C6_idem_on_fixed_points :
    ∀ x : String, sanitize x = x → sanitize (sanitize x) = sanitize x := by
  intro x h
  rw [h]
  exact h

/-- Witness for C6 at a sanitize fixed point. -/
theorem C6_witness :
    sanitize "\x7b\x7d" = "\x7b\x7d"
    ∧ sanitize (sanitize "\x7b\x7d") = sanitize "\x7b\x7d" :=
  ⟨rfl, C6_idem_on_fixed_points "\x7b\x7d" rfl⟩

/-!
## C9 — fence markers and sanitization

Character-provenance lemmas: every character of the sanitized text comes from
the input or is a `'\n'` reinserted by joining/collapsing or a `'"'`
reinserted by the junk-stripping replacement.
-/

theorem mem_jsRTrim {c : Char} {l : List Char} (h : c ∈ jsRTrim l) : c ∈ l := by
  rw [jsRTrim, List.mem_reverse] at h
  have := (List.dropWhile_sublist (p := isJsWs) (l := l.reverse)).mem h
  rwa [List.mem_reverse] at this

theorem mem_jsLTrim {c : Char} {l : List Char} (h : c ∈ jsLTrim l) : c ∈ l :=
  (List.dropWhile_sublist (p := isJsWs) (l := l)).mem h

theorem mem_jsTrim {c : Char} {l : List Char} (h : c ∈ jsTrim l) : c ∈ l :=
  mem_jsLTrim (mem_jsRTrim h)

theorem mem_fenceUnwrap {c : Char} {l : List Char} (h : c ∈ fenceUnwrap l) : c ∈ l := by
  rw [fenceUnwrap] at h
  split at h
  · dsimp only at h
    split at h
    · exact h
    · have h1 := mem_jsTrim h
      have h2 := mem_jsRTrim h1
      have h3 := (List.take_sublist _ _).mem h2
      have h4 := (List.drop_sublist _ _).mem h3
      exact (List.drop_sublist _ _).mem h4
  · exact h

theorem r1go_cons (f : Nat) (prev : Option Char) (c0 : Char) (rest : List Char) :
    r1go (f + 1) prev (c0 :: rest) =
      match r1consume prev (c0 :: rest) with
      | some m => r1go f (((c0 :: rest).take (m + 1)).getLast?) ((c0 :: rest).drop (m + 1))
      | none => c0 :: r1go f (some c0) rest := rfl

theorem r2go_cons (f : Nat) (prev : Option Char) (c0 : Char) (rest : List Char) :
    r2go (f + 1) prev (c0 :: rest) =
      match r2consume prev (c0 :: rest) with
      | some (a, m) =>
        (c0 :: rest).take a ++ '"' :: r2go f (some '"') ((c0 :: rest).drop (m + 1))
      | none => c0 :: r2go f (some c0) rest := rfl

theorem collapseNl_cons (f : Nat) (c0 : Char) (rest : List Char) :
    collapseNl (f + 1) (c0 :: rest) =
      if c0 = '\n' then
        match lastNlInRun rest (wsRun rest) with
        | some k => '\n' :: collapseNl f (rest.drop (k + 1))
        | none => '\n' :: collapseNl f rest
      else c0 :: collapseNl f rest := rfl

theorem mem_r1go {c : Char} :
    ∀ (fuel : Nat) (prev : Option Char) (l : List Char), c ∈ r1go fuel prev l → c ∈ l := by
  intro fuel
  induction fuel with
  | zero => intro prev l h; exact h
  | succ f ih =>
    intro prev l h
    cases l with
    | nil => exact h
    | cons c0 rest =>
      rw [r1go_cons] at h
      cases hm : r1consume prev (c0 :: rest) with
      | none =>
        rw [hm] at h
        rcases List.mem_cons.mp h with rfl | h2
        · exact List.mem_cons_self _ _
        · exact List.mem_cons_of_mem _ (ih _ _ h2)
      | some m =>
        rw [hm] at h
        exact List.mem_of_mem_drop (ih _ _ h)

theorem mem_r2go {c : Char} :
    ∀ (fuel : Nat) (prev : Option Char) (l : List Char),
      c ∈ r2go fuel prev l → c ∈ l ∨ c = '"' := by
  intro fuel
  induction fuel with
  | zero => intro prev l h; exact Or.inl h
  | succ f ih =>
    intro prev l h
    cases l with
    | nil => exact Or.inl h
    | cons c0 rest =>
      rw [r2go_cons] at h
      cases hm : r2consume prev (c0 :: rest) with
      | none =>
        rw [hm] at h
        rcases List.mem_cons.mp h with rfl | h2
        · exact Or.inl (List.mem_cons_self _ _)
        · rcases ih _ _ h2 with h3 | h3
          · exact Or.inl (List.mem_cons_of_mem _ h3)
          · exact Or.inr h3
      | some am =>
        rw [hm] at h
        rcases List.mem_append.mp h with h2 | h2
        · exact Or.inl (List.mem_of_mem_take h2)
        · rcases List.mem_cons.mp h2 with rfl | h3
          · exact Or.inr rfl
          · rcases ih _ _ h3 with h4 | h4
            · exact Or.inl (List.mem_of_mem_drop h4)
            · exact Or.inr h4

theorem mem_of_mem_splitNl {c : Char} :
    ∀ {l : List Char} {p : List Char}, p ∈ splitNl l → c ∈ p → c ∈ l := by
  intro l
  induction l with
  | nil =>
    intro p hp hc
    simp [splitNl] at hp
    subst hp
    simp at hc
  | cons c0 rest ih =>
    intro p hp hc
    rw [splitNl] at hp
    by_cases h0 : c0 = '\n'
    · rw [if_pos h0] at hp
      rcases List.mem_cons.mp hp with rfl | hp2
      · simp at hc
      · exact List.mem_cons_of_mem _ (ih hp2 hc)
    · rw [if_neg h0] at hp
      cases htl : splitNl rest with
      | nil =>
        rw [htl] at hp
        simp at hp
        subst hp
        simp at hc
        simp [hc]
      | cons hd tl =>
        rw [htl] at hp
        rcases List.mem_cons.mp hp with rfl | hp2
        · rcases List.mem_cons.mp hc with rfl | hc2
          · exact List.mem_cons_self _ _
          · exact List.mem_cons_of_mem _ (ih (htl ▸ List.mem_cons_self hd tl) hc2)
        · exact List.mem_cons_of_mem _ (ih (htl ▸ List.mem_cons_of_mem hd hp2) hc)

theorem mem_joinNl {c : Char} :
    ∀ {ls : List (List Char)}, c ∈ joinNl ls → (∃ p ∈ ls, c ∈ p) ∨ c = '\n' := by
  intro ls
  induction ls with
  | nil => intro h; simp [joinNl] at h
  | cons hd t ih =>
    intro h
    cases t with
    | nil => exact Or.inl ⟨hd, List.mem_cons_self _ _, by simpa [joinNl] using h⟩
    | cons h2 t2 =>
      have hJ : joinNl (hd :: h2 :: t2) = hd ++ '\n' :: joinNl (h2 :: t2) := rfl
      rw [hJ] at h
      rcases List.mem_append.mp h with h1 | h1
      · exact Or.inl ⟨hd, List.mem_cons_self _ _, h1⟩
      · rcases List.mem_cons.mp h1 with rfl | h3
        · exact Or.inr rfl
        · rcases ih h3 with ⟨p, hp, hcp⟩ | hnl
          · exact Or.inl ⟨p, List.mem_cons_of_mem _ hp, hcp⟩
          · exact Or.inr hnl

theorem mem_filterLines {c : Char} {l : List Char}
    (h : c ∈ filterLines l) : c ∈ l ∨ c = '\n' := by
  rcases mem_joinNl h with ⟨p, hp, hcp⟩ | hnl
  · exact Or.inl (mem_of_mem_splitNl (List.mem_of_mem_filter hp) hcp)
  · exact Or.inr hnl

theorem mem_collapseNl {c : Char} :
    ∀ (fuel : Nat) (l : List Char), c ∈ collapseNl fuel l → c ∈ l ∨ c = '\n' := by
  intro fuel
  induction fuel with
  | zero => intro l h; exact Or.inl h
  | succ f ih =>
    intro l h
    cases l with
    | nil => exact Or.inl h
    | cons c0 rest =>
      rw [collapseNl_cons] at h
      by_cases h0 : c0 = '\n'
      · rw [if_pos h0] at h
        cases hk : lastNlInRun rest (wsRun rest) with
        | some k =>
          rw [hk] at h
          rcases List.mem_cons.mp h with rfl | h2
          · exact Or.inr rfl
          · rcases ih _ h2 with h3 | h3
            · exact Or.inl (List.mem_cons_of_mem _ (List.mem_of_mem_drop h3))
            · exact Or.inr h3
        | none =>
          rw [hk] at h
          rcases List.mem_cons.mp h with rfl | h2
          · exact Or.inr rfl
          · rcases ih _ h2 with h3 | h3
            · exact Or.inl (List.mem_cons_of_mem _ h3)
            · exact Or.inr h3
      · rw [if_neg h0] at h
        rcases List.mem_cons.mp h with rfl | h2
        · exact Or.inl (List.mem_cons_self _ _)
        · rcases ih _ h2 with h3 | h3
          · exact Or.inl (List.mem_cons_of_mem _ h3)
          · exact Or.inr h3

/-- Character provenance of the whole sanitization stage. -/
theorem mem_sanitizeL {c : Char} {l : List Char}
    (h : c ∈ sanitizeL l) : c ∈ l ∨ c = '\n' ∨ c = '"' := by
  have h1 := mem_jsTrim h
  rcases mem_collapseNl _ _ h1 with h2 | h2
  · rcases mem_filterLines h2 with h3 | h3
    · rcases mem_r2go _ _ _ h3 with h4 | h4
      · have h5 := mem_r1go _ _ _ h4
        have h6 := mem_fenceUnwrap h5
        exact Or.inl (mem_jsTrim h6)
      · exact Or.inr (Or.inr h4)
    · exact Or.inr (Or.inl h3)
  · exact Or.inr (Or.inl h2)

theorem btick_of_hasSub_fence :
    ∀ {l : List Char}, hasSub fenceMarker l = true → btick ∈ l := by
  intro l
  induction l with
  | nil => intro h; simp [hasSub, fenceMarker] at h
  | cons c0 rest ih =>
    intro h
    rw [hasSub] at h
    rcases Bool.or_eq_true_iff.mp h with h1 | h1
    · have : (c0 :: rest).take fenceMarker.length = fenceMarker := by
        simpa [startsL] using h1
      have hc : c0 = btick := by
        have := congrArg List.head? this
        simpa [fenceMarker] using this
      simp [hc]
    · exact List.mem_cons_of_mem _ (ih h1)

/-- C9 counterexample: a fence marker strictly inside the text survives
sanitization, so the sanitized text can contain fence delimiters. -/
theorem C9_counterexample :
    hasSub fenceMarker (sanitize ",\n```").toList = true := by decide

/-- C9 (amended): the sanitizer removes a whole-string fence wrapper and
never introduces fence delimiters — if the raw text contains no backtick at
all, the sanitized text contains no fence delimiter — but a fence marker
embedded strictly inside the text can survive, so the blanket invariant
fails. -/
theorem C9_no_new_fences :
    ∀ x : String, (∀ c ∈ x.toList, c ≠ btick) →
      hasSub fenceMarker (sanitize x).toList = false := by
  intro x hx
  by_contra hcontra
  have h1 : hasSub fenceMarker (sanitize x).toList = true := by
    cases h : hasSub fenceMarker (sanitize x).toList
    · exact absurd h hcontra
    · rfl
  have h2 : btick ∈ (sanitize x).toList := btick_of_hasSub_fence h1
  have h3 : btick ∈ sanitizeL x.toList := h2
  rcases mem_sanitizeL h3 with h4 | h4 | h4
  · exact hx _ h4 rfl
  · exact absurd h4 (by decide)
  · exact absurd h4 (by decide)

/-- Witness for C9 at a backtick-free input. -/
theorem C9_witness :
    (∀ c ∈ ("\x7b\x7d" : String).toList, c ≠ btick)
    ∧ hasSub fenceMarker (sanitize "\x7b\x7d").toList = false :=
  ⟨by decide, C9_no_new_fences "\x7b\x7d" (by decide)⟩

/-!
## C8 — presence of the two product fields
-/

theorem find?_map_replace_self (k : String) (v : JsVal) :
    ∀ t : List (String × JsVal), t.any (fun p => p.1 = k) = true →
      List.find? (fun p => p.1 = k) (t.map (fun p => if p.1 = k then (k, v) else p))
        = some (k, v) := by
  intro t
  induction t with
  | nil => intro h; simp at h
  | cons p t ih =>
    intro h
    by_cases hp : p.1 = k
    · rw [List.map_cons, if_pos hp, List.find?_cons_of_pos _ (by simp)]
    · have ht : t.any (fun p => p.1 = k) = true := by
        simp only [List.any_cons, Bool.or_eq_true, decide_eq_true_eq] at h
        rcases h with h1 | h1
        · exact absurd h1 hp
        · exact h1
      rw [List.map_cons, if_neg hp, List.find?_cons_of_neg _ (by simp [hp])]
      exact ih ht

theorem find?_append_single_self (k : String) (v : JsVal) :
    ∀ t : List (String × JsVal), t.any (fun p => p.1 = k) = false →
      List.find? (fun p => p.1 = k) (t ++ [(k, v)]) = some (k, v) := by
  intro t
  induction t with
  | nil =>
    intro h
    rw [List.nil_append, List.find?_cons_of_pos _ (by simp)]
  | cons p t ih =>
    intro h
    simp only [List.any_cons, Bool.or_eq_false_iff, decide_eq_false_iff_not] at h
    rw [List.cons_append, List.find?_cons_of_neg _ (by simp [h.1])]
    exact ih h.2

theorem find?_map_replace_other {k k2 : String} (hne : k2 ≠ k) (v : JsVal) :
    ∀ t : List (String × JsVal),
      List.find? (fun p => p.1 = k2) (t.map (fun p => if p.1 = k then (k, v) else p))
        = List.find? (fun p => p.1 = k2) t := by
  intro t
  induction t with
  | nil => simp
  | cons p t ih =>
    by_cases hp : p.1 = k
    · rw [List.map_cons, if_pos hp,
        List.find?_cons_of_neg _
          (by simp only [decide_eq_true_eq]; exact fun hh => hne hh.symm),
        List.find?_cons_of_neg _
          (by simp only [decide_eq_true_eq]; exact fun hh => hne (hp ▸ hh).symm)]
      exact ih
    · by_cases hp2 : p.1 = k2
      · rw [List.map_cons, if_neg hp, List.find?_cons_of_pos _ (by simp [hp2]),
          List.find?_cons_of_pos _ (by simp [hp2])]
      · rw [List.map_cons, if_neg hp, List.find?_cons_of_neg _ (by simp [hp2]),
          List.find?_cons_of_neg _ (by simp [hp2])]
        exact ih

theorem find?_append_single_other {k k2 : String} (hne : k2 ≠ k) (v : JsVal) :
    ∀ t : List (String × JsVal),
      List.find? (fun p => p.1 = k2) (t ++ [(k, v)]) = List.find? (fun p => p.1 = k2) t := by
  intro t
  induction t with
  | nil =>
    rw [List.nil_append,
      List.find?_cons_of_neg _ (by simp only [decide_eq_true_eq]; exact fun hh => hne hh.symm)]
  | cons p t ih =>
    by_cases hp2 : p.1 = k2
    · rw [List.cons_append, List.find?_cons_of_pos _ (by simp [hp2]),
        List.find?_cons_of_pos _ (by simp [hp2])]
    · rw [List.cons_append, List.find?_cons_of_neg _ (by simp [hp2]),
        List.find?_cons_of_neg _ (by simp [hp2])]
      exact ih

theorem find?_insertJs_self (l : List (String × JsVal)) (k : String) (v : JsVal) :
    (insertJs l k v).find? (fun p => p.1 = k) = some (k, v) := by
  rw [insertJs]
  by_cases hany : l.any (fun p => p.1 = k)
  · rw [if_pos hany]
    exact find?_map_replace_self k v l hany
  · rw [if_neg hany]
    exact find?_append_single_self k v l (Bool.eq_false_iff.mpr hany)

theorem find?_insertJs_other {k k2 : String} (hne : k2 ≠ k) (l : List (String × JsVal))
    (v : JsVal) :
    (insertJs l k v).find? (fun p => p.1 = k2) = l.find? (fun p => p.1 = k2) := by
  rw [insertJs]
  by_cases hany : l.any (fun p => p.1 = k)
  · rw [if_pos hany]
    exact find?_map_replace_other hne v l
  · rw [if_neg hany]
    exact find?_append_single_other hne v l

/-- The input whose parse is a truthy object holding a truthy non-array in
`similarProducts`. -/
def truthyNonArray : String :=
  "\x7b\"analysis\":\"a\",\"similarProducts\":\"hello\",\"complementaryProducts\":[]\x7d"

set_option maxHeartbeats 4000000 in
/-- C8 counterexample: the `|| []` default keeps any truthy value, so a model
response carrying the string `"hello"` in `similarProducts` is returned with
that field present but not an array — the claim's "always arrays" part fails. -/
theorem C8_counterexample :
    getF (analyzeImageAndSuggestProducts (.ok truthyNonArray)) "similarProducts"
      = some (.str "hello")
    ∧ (getF (analyzeImageAndSuggestProducts (.ok truthyNonArray)) "similarProducts").map isArrV
      = some false :=
  ⟨rfl, rfl⟩

/-- C8 (amended): on every execution both product fields are present (never
absent/undefined): every failure path returns the error shape with both
fields empty arrays, and on a successful truthy parse both fields are written
(an omitted or falsy field becomes `[]`, a truthy non-array value is passed
through unchanged rather than replaced by an array). -/
theorem analyzeOk_fields (res : Option JsVal) :
    (getF (analyzeOk res) "similarProducts").isSome = true
    ∧ (getF (analyzeOk res) "complementaryProducts").isSome = true := by
  cases res with
  | none => exact ⟨rfl, rfl⟩
  | some parsed =>
    by_cases htr : jsTruthy parsed = true
    · cases parsed with
      | null => simp [jsTruthy] at htr
      | bool b =>
        constructor
        · show (getF (if !jsTruthy (JsVal.bool b) then _ else _) _).isSome = true
          rw [htr]
          rfl
        · show (getF (if !jsTruthy (JsVal.bool b) then _ else _) _).isSome = true
          rw [htr]
          rfl
      | num m e =>
        constructor
        · show (getF (if !jsTruthy (JsVal.num m e) then _ else _) _).isSome = true
          rw [htr]
          rfl
        · show (getF (if !jsTruthy (JsVal.num m e) then _ else _) _).isSome = true
          rw [htr]
          rfl
      | str s =>
        constructor
        · show (getF (if !jsTruthy (JsVal.str s) then _ else _) _).isSome = true
          rw [htr]
          rfl
        · show (getF (if !jsTruthy (JsVal.str s) then _ else _) _).isSome = true
          rw [htr]
          rfl
      | obj ps =>
        constructor
        · show ((List.find? _ (insertJs (insertJs ps "similarProducts" _)
            "complementaryProducts" _)).map _).isSome = true
          rw [find?_insertJs_other (by decide), find?_insertJs_self]
          rfl
        · show ((List.find? _ (insertJs (insertJs ps "similarProducts" _)
            "complementaryProducts" _)).map _).isSome = true
          rw [find?_insertJs_self]
          rfl
      | arr es ps =>
        constructor
        · show ((List.find? _ (insertJs (insertJs ps "similarProducts" _)
            "complementaryProducts" _)).map _).isSome = true
          rw [find?_insertJs_other (by decide), find?_insertJs_self]
          rfl
        · show ((List.find? _ (insertJs (insertJs ps "similarProducts" _)
            "complementaryProducts" _)).map _).isSome = true
          rw [find?_insertJs_self]
          rfl
    · have htr2 : jsTruthy parsed = false := Bool.eq_false_iff.mpr htr
      constructor
      · show (getF (if !jsTruthy parsed then _ else _) _).isSome = true
        rw [htr2]
        rfl
      · show (getF (if !jsTruthy parsed then _ else _) _).isSome = true
        rw [htr2]
        rfl

/-- C8 (amended): on every execution both product fields are present (never
absent/undefined): every failure path returns the error shape with both
fields empty arrays, and on a successful truthy parse both fields are written
(an omitted or falsy field becomes `[]`, a truthy non-array value is passed
through unchanged rather than replaced by an array). -/
theorem C8_fields_always_present :
    ∀ mr : Except String String,
      (getF (analyzeImageAndSuggestProducts mr) "similarProducts").isSome = true
      ∧ (getF (analyzeImageAndSuggestProducts mr) "complementaryProducts").isSome = true := by
  intro mr
  cases mr with
  | error e => exact ⟨rfl, rfl⟩
  | ok t => exact analyzeOk_fields (sanitizeAndParseJson t)

/-!
## C3 — the structural extractor finds exactly the balanced prefix
-/

/-- The initial scanner state. -/
def st0 : MSt := ⟨false, false, 0⟩

theorem runM_cons (o c : Char) (st : MSt) (ch : Char) (l : List Char) :
    runM o c st (ch :: l) = runM o c (mstep o c st ch) l := rfl

theorem exLoop_cons (o c : Char) (full : List Char) (ch : Char) (rest : List Char)
    (i : Nat) (st : MSt) :
    exLoop o c full (ch :: rest) i st =
      if !st.esc && !(ch = '\\') && (mstep o c st ch).depth = 0 && initialFound full o i
      then some (i + 1)
      else exLoop o c full rest (i + 1) (mstep o c st ch) := rfl

theorem initialFound_of_head {full : List Char} {o : Char}
    (h : full.head? = some o) (i : Nat) : initialFound full o i = true := by
  cases full with
  | nil => simp at h
  | cons c0 rest =>
    simp only [List.head?_cons, Option.some.injEq] at h
    subst h
    rw [initialFound, List.take_succ_cons]
    show (if c0 = c0 then true else _) = true
    simp

/-- The spec's balanced-region predicate, stated with the code's own
string-aware scanner (glossary: a balanced region is a prefix on which the
structural open/close counts match, respecting string-literal boundaries, and
the count does not return to zero strictly inside it). -/
def specBalanced (o c : Char) (p : List Char) : Bool :=
  p.head? = some o &&
  (runM o c st0 p).depth = 0 &&
  (List.range p.length).all (fun k => k = 0 || !((runM o c st0 (p.take k)).depth = 0))

/-- The counting loop stops exactly at the end of a balanced prefix. -/
theorem exLoop_finds (o c : Char) (ho : ¬o = '\\')
    (full : List Char) (hfull : full.head? = some o) :
    ∀ (q : List Char) (rr : List Char) (i : Nat) (st : MSt),
      (runM o c st q).depth = 0 →
      (∀ k, 0 < k → k < q.length → (runM o c st (q.take k)).depth ≠ 0) →
      q ≠ [] →
      (st.depth ≠ 0 ∨ (st = st0 ∧ q.head? = some o)) →
      exLoop o c full (q ++ rr) i st = some (i + q.length) := by
  intro q
  induction q with
  | nil => intro rr i st _ _ hne _; exact absurd rfl hne
  | cons ch q' ih =>
    intro rr i st hlast hmid hne hinv
    by_cases hq : q' = []
    · subst hq
      have h3 : (mstep o c st ch).depth = 0 := hlast
      have h1 : st.esc = false := by
        cases hesc : st.esc with
        | false => rfl
        | true =>
          exfalso
          have hd : (mstep o c st ch).depth = st.depth := by
            rw [mstep, hesc]
            simp
          rcases hinv with hnz | ⟨hst, hh⟩
          · exact hnz (hd ▸ h3)
          · rw [hst] at hesc
            exact absurd hesc (by simp [st0])
      have h2 : ¬(ch = '\\') := by
        intro hch
        rcases hinv with hnz | ⟨hst, hh⟩
        · have hd : (mstep o c st ch).depth = st.depth := by
            rw [mstep, h1, hch]
            simp
          exact hnz (hd ▸ h3)
        · have hch2 : ch = o := by
            simp only [List.head?_cons, Option.some.injEq] at hh
            exact hh
          exact ho (hch2 ▸ hch)
      have hcond : (!st.esc && !(ch = '\\') && (mstep o c st ch).depth = 0 &&
          initialFound full o i) = true := by
        simp [h1, h2, h3, initialFound_of_head hfull]
      rw [List.cons_append, List.nil_append, exLoop_cons, hcond]
      simp
    · have hlen : 1 < (ch :: q').length := by
        cases q' with
        | nil => exact absurd rfl hq
        | cons a b => simp [List.length_cons]
      have h3 : (mstep o c st ch).depth ≠ 0 := by
        have := hmid 1 (by omega) hlen
        simpa [List.take_succ_cons, runM] using this
      have hcond : (!st.esc && !(ch = '\\') && (mstep o c st ch).depth = 0 &&
          initialFound full o i) = false := by
        cases hb : decide ((mstep o c st ch).depth = 0) with
        | false => simp [hb]
        | true => exact absurd (of_decide_eq_true hb) h3
      rw [List.cons_append, exLoop_cons, hcond]
      show exLoop o c full (q' ++ rr) (i + 1) (mstep o c st ch) = some (i + (q'.length + 1))
      rw [ih rr (i + 1) (mstep o c st ch) hlast ?hmid hq (Or.inl h3)]
      · congr 1
        omega
      case hmid =>
        intro k hk0 hkl
        have := hmid (k + 1) (by omega) (by simpa [List.length_cons] using Nat.succ_lt_succ hkl)
        simpa [List.take_succ_cons, runM] using this

theorem specBalanced_unpack {o c : Char} {p : List Char}
    (h : specBalanced o c p = true) :
    p.head? = some o ∧ (runM o c st0 p).depth = 0
    ∧ ∀ k, 0 < k → k < p.length → (runM o c st0 (p.take k)).depth ≠ 0 := by
  rw [specBalanced] at h
  simp only [Bool.and_eq_true, decide_eq_true_eq, List.all_eq_true, List.mem_range] at h
  refine ⟨h.1.1, h.1.2, ?_⟩
  intro k hk0 hkl
  have := h.2 k hkl
  rcases Bool.or_eq_true_iff.mp this with h1 | h1
  · exact absurd (of_decide_eq_true h1) (by omega)
  · intro hz
    rw [hz] at h1
    simp at h1

/-- The extractor returns exactly the balanced prefix of the sanitized text. -/
theorem extractRegion_balanced {z p r : List Char} {o c : Char}
    (hoc : (o = lbrace ∧ c = rbrace) ∨ (o = '[' ∧ c = ']'))
    (hz : z = p ++ r)
    (hbal : specBalanced o c p = true) :
    extractRegion z = some p := by
  obtain ⟨h1, h2, h3⟩ := specBalanced_unpack hbal
  have hne : p ≠ [] := by
    intro hp
    rw [hp] at h1
    simp at h1
  have hhead : z.head? = some o := by
    rw [hz]
    cases p with
    | nil => exact absurd rfl hne
    | cons a b =>
      simp only [List.head?_cons, Option.some.injEq] at h1
      simp [h1]
  have hofacts : ¬o = '\\' ∧ ¬o = '"' ∧ isJsWs o = false := by
    rcases hoc with ⟨rfl, _⟩ | ⟨rfl, _⟩ <;> exact ⟨by decide, by decide, by decide⟩
  have hltrim : jsLTrim z = z := by
    apply dropWhile_eq_self_of_head
    intro c0 hc0
    rw [hhead] at hc0
    injection hc0 with hc0
    rw [← hc0]
    exact hofacts.2.2
  have hloop : exLoop o c z z 0 st0 = some p.length := by
    have := exLoop_finds o c hofacts.1 z hhead p r 0 st0 h2 h3 hne
      (Or.inr ⟨rfl, h1⟩)
    rw [← hz] at this
    simpa using this
  have htake : z.take p.length = p := by
    rw [hz]
    exact List.take_left p r
  rcases hoc with ⟨rfl, rfl⟩ | ⟨rfl, rfl⟩
  · show (match (jsLTrim z).head? with
      | some c0 =>
        if c0 = lbrace then (exLoop lbrace rbrace z z 0 ⟨false, false, 0⟩).map z.take
        else if c0 = '[' then (exLoop '[' ']' z z 0 ⟨false, false, 0⟩).map z.take
        else none
      | none => none) = some p
    rw [hltrim, hhead]
    show (if lbrace = lbrace then (exLoop lbrace rbrace z z 0 ⟨false, false, 0⟩).map z.take
      else _) = some p
    rw [if_pos rfl]
    show (exLoop lbrace rbrace z z 0 st0).map z.take = some p
    rw [hloop]
    simp [htake]
  · show (match (jsLTrim z).head? with
      | some c0 =>
        if c0 = lbrace then (exLoop lbrace rbrace z z 0 ⟨false, false, 0⟩).map z.take
        else if c0 = '[' then (exLoop '[' ']' z z 0 ⟨false, false, 0⟩).map z.take
        else none
      | none => none) = some p
    rw [hltrim, hhead]
    show (if '[' = lbrace then _
      else if '[' = '[' then (exLoop '[' ']' z z 0 ⟨false, false, 0⟩).map z.take
      else none) = some p
    rw [if_neg (by decide), if_pos rfl]
    show (exLoop '[' ']' z z 0 st0).map z.take = some p
    rw [hloop]
    simp [htake]

theorem extractRegion_none {z : List Char}
    (hh : ∀ c0, (jsLTrim z).head? = some c0 → ¬(c0 = lbrace ∨ c0 = '[')) :
    extractRegion z = none := by
  show (match (jsLTrim z).head? with
    | some c0 =>
      if c0 = lbrace then (exLoop lbrace rbrace z z 0 ⟨false, false, 0⟩).map z.take
      else if c0 = '[' then (exLoop '[' ']' z z 0 ⟨false, false, 0⟩).map z.take
      else none
    | none => none) = none
  cases hc : (jsLTrim z).head? with
  | none => rfl
  | some c0 =>
    have hn := hh c0 hc
    show (if c0 = lbrace then _ else if c0 = '[' then _ else none) = none
    rw [if_neg (fun h => hn (Or.inl h)), if_neg (fun h => hn (Or.inr h))]

theorem parseModelJson_as_afterSanitize (s : String) :
    parseModelJson s = afterSanitize (sanitizeL s.toList) := rfl

theorem afterSanitize_noshape {sane : List Char}
    (hparse : jsonParseL sane = none)
    (hhead : ∀ c0, (jsLTrim sane).head? = some c0 → ¬(c0 = lbrace ∨ c0 = '[')) :
    afterSanitize sane = none := by
  show (match jsonParseL sane with
    | some v => some v
    | none =>
      if sane.isEmpty then none
      else
        match extractRegion sane with
        | some sub => jsonParseL sub
        | none => none) = none
  rw [hparse]
  show (if sane.isEmpty then none
    else
      match extractRegion sane with
      | some sub => jsonParseL sub
      | none => none) = none
  cases he : sane.isEmpty with
  | true => rfl
  | false =>
    show (match extractRegion sane with
      | some sub => jsonParseL sub
      | none => none) = none
    rw [extractRegion_none hhead]

theorem afterSanitize_extracted {sane p r : List Char} {o c : Char}
    (hoc : (o = lbrace ∧ c = rbrace) ∨ (o = '[' ∧ c = ']'))
    (hsplit : sane = p ++ r)
    (hbal : specBalanced o c p = true)
    (hparse : jsonParseL sane = none) :
    afterSanitize sane = jsonParseL p := by
  have hex : extractRegion sane = some p := extractRegion_balanced hoc hsplit hbal
  have hpne : p ≠ [] := by
    intro hp
    have := (specBalanced_unpack hbal).1
    rw [hp] at this
    simp at this
  have hne : sane.isEmpty = false := by
    rw [hsplit]
    cases p with
    | nil => exact absurd rfl hpne
    | cons a b => rfl
  show (match jsonParseL sane with
    | some v => some v
    | none =>
      if sane.isEmpty then none
      else
        match extractRegion sane with
        | some sub => jsonParseL sub
        | none => none) = jsonParseL p
  rw [hparse]
  show (if sane.isEmpty then none
    else
      match extractRegion sane with
      | some sub => jsonParseL sub
      | none => none) = jsonParseL p
  rw [hne]
  show (match extractRegion sane with
    | some sub => jsonParseL sub
    | none => none) = jsonParseL p
  rw [hex]

set_option maxHeartbeats 2000000 in
/-- The concrete recovery example of the extractor: prose after a complete
object is cut away and the object parsed. -/
theorem trailing_commentary_example :
    parseModelJson "\x7b\"a\":1\x7d some extra commentary here"
      = some (.obj [("a", .num 1 0)]) := rfl

set_option maxHeartbeats 2000000 in
/-- C3: the structural extractor's contract.  (i) When the strict parse of the
sanitized text fails and its first non-white-space character is neither an
opening brace nor an opening bracket, no extraction is attempted and the
result is absent.  (ii) When a balanced region (the code's string-aware
count first returning to zero) is a prefix of the sanitized text, exactly
that prefix is extracted, and on strict-parse failure the pipeline result is
the parse of that prefix.  (iii) The concrete example: trailing commentary
after a complete object is recovered. -/
theorem C3_extractor_contract :
    (∀ s : String, jsonParseL (sanitizeL s.toList) = none →
      (∀ c0, (jsLTrim (sanitizeL s.toList)).head? = some c0 → ¬(c0 = lbrace ∨ c0 = '[')) →
      parseModelJson s = none)
    ∧ (∀ s : String, ∀ p r : List Char, ∀ o c : Char,
        ((o = lbrace ∧ c = rbrace) ∨ (o = '[' ∧ c = ']')) →
        sanitizeL s.toList = p ++ r →
        specBalanced o c p = true →
        extractRegion (sanitizeL s.toList) = some p
        ∧ (jsonParseL (sanitizeL s.toList) = none → parseModelJson s = jsonParseL p))
    ∧ parseModelJson "\x7b\"a\":1\x7d some extra commentary here"
        = some (.obj [("a", .num 1 0)]) :=
  ⟨fun s hparse hhead =>
     (parseModelJson_as_afterSanitize s).trans (afterSanitize_noshape hparse hhead),
   fun s p r o c hoc hsplit hbal =>
     ⟨extractRegion_balanced hoc hsplit hbal,
      fun hparse =>
        (parseModelJson_as_afterSanitize s).trans
          (afterSanitize_extracted hoc hsplit hbal hparse)⟩,
   trailing_commentary_example⟩

/-- Witness for C3 at concrete inputs: a non-JSON-shaped sanitized text for
part (i), and a balanced-prefix split for part (ii). -/
theorem C3_witness :
    (jsonParseL (sanitizeL ("-" : String).toList) = none ∧ parseModelJson "-" = none)
    ∧ (specBalanced lbrace rbrace (String.toList "\x7b\x7d") = true
       ∧ extractRegion (sanitizeL ("\x7b\x7d x" : String).toList)
           = some (String.toList "\x7b\x7d")) := by
  refine ⟨⟨rfl, ?_⟩, ⟨by decide, ?_⟩⟩
  · refine C3_extractor_contract.1 "-" rfl ?_
    intro c0 h
    have hc : c0 = '-' := by
      have h2 : some '-' = some c0 := h
      injection h2 with h3
      exact h3.symm
    rw [hc]
    decide
  · exact (C3_extractor_contract.2.1 "\x7b\x7d x" (String.toList "\x7b\x7d")
      (String.toList " x") lbrace rbrace (Or.inl ⟨rfl, rfl⟩) rfl (by decide)).1

/-!
## C7 — fenced wrapping is transparent
-/

/-- Wrapping a string in a fenced code block spanning the whole string, with
an optional language tag. -/
def fencedWrap (tag j : String) : String := "```" ++ tag ++ "\n" ++ j ++ "\n```"

/-- The same wrapping on character lists. -/
def fencedWrapL (tag j : List Char) : List Char :=
  fenceMarker ++ tag ++ '\n' :: j ++ '\n' :: fenceMarker

theorem takeWhile_all_append {p : Char → Bool} {l1 l2 : List Char}
    (h : ∀ a ∈ l1, p a = true) (h2 : ∀ c, l2.head? = some c → p c = false) :
    (l1 ++ l2).takeWhile p = l1 := by
  induction l1 with
  | nil =>
    cases l2 with
    | nil => rfl
    | cons c r =>
      rw [List.nil_append, List.takeWhile_cons, h2 c rfl]
      simp
  | cons a t ih =>
    rw [List.cons_append, List.takeWhile_cons, h a (List.mem_cons_self _ _)]
    rw [if_pos rfl, ih (fun b hb => h b (List.mem_cons_of_mem _ hb))]

theorem dropWhile_all_append {p : Char → Bool} {l1 l2 : List Char}
    (h : ∀ a ∈ l1, p a = true) :
    (l1 ++ l2).dropWhile p = l2.dropWhile p := by
  induction l1 with
  | nil => rfl
  | cons a t ih =>
    rw [List.cons_append, List.dropWhile_cons, h a (List.mem_cons_self _ _)]
    rw [if_pos rfl]
    exact ih (fun b hb => h b (List.mem_cons_of_mem _ hb))

theorem jsRTrim_append_all_ws {l t : List Char} (h : ∀ c ∈ t, isJsWs c = true) :
    jsRTrim (l ++ t) = jsRTrim l := by
  rw [jsRTrim, jsRTrim, List.reverse_append]
  rw [dropWhile_all_append (fun a ha => h a (List.mem_reverse.mp ha))]

theorem jsTrim_eq_self {l : List Char}
    (hh : ∀ c, l.head? = some c → isJsWs c = false)
    (hl : ∀ c, l.getLast? = some c → isJsWs c = false) : jsTrim l = l := by
  rw [jsTrim, jsLTrim, dropWhile_eq_self_of_head hh]
  exact jsRTrim_eq_self_of_getLast hl

theorem startsL_head {l : List Char} (h : startsL l fenceMarker = true) :
    l.head? = some btick := by
  cases l with
  | nil => simp [startsL, fenceMarker] at h
  | cons c r =>
    have h2 : (c :: r).take fenceMarker.length = fenceMarker := by
      simpa [startsL] using h
    have := congrArg List.head? h2
    simpa [fenceMarker] using this

theorem fenceUnwrap_eq_self_of_head {l : List Char} {c0 : Char}
    (h : l.head? = some c0) (hb : ¬c0 = btick) : fenceUnwrap l = l := by
  have hs : startsL l fenceMarker = false := by
    cases hst : startsL l fenceMarker with
    | false => rfl
    | true =>
      have := startsL_head hst
      rw [h] at this
      injection this with this
      exact absurd this hb
  rw [fenceUnwrap, hs]
  simp

theorem parseV_none_of_bad_head {f : Nat} {c : Char} {r : List Char}
    (h1 : ¬c = lbrace) (h2 : ¬c = '[') (h3 : ¬c = '"') (h4 : ¬c = 't')
    (h5 : ¬c = 'f') (h6 : ¬c = 'n') (h7 : ¬c = Char.ofNat 45)
    (h8 : ¬isDigitJs c = true) :
    parseV (f + 1) (c :: r) = none := by
  show (if c = lbrace then _
    else if c = '[' then _
    else if c = '"' then _
    else if c = 't' then _
    else if c = 'f' then _
    else if c = 'n' then _
    else if c = Char.ofNat 45 || isDigitJs c then _
    else none) = none
  rw [if_neg h1, if_neg h2, if_neg h3, if_neg h4, if_neg h5, if_neg h6,
    if_neg (by simp [h7, h8])]

/-- A successful value parse dispatches on a JSON value-start character. -/
theorem parseV_head {f : Nat} {l : List Char} {x : JsVal × List Char}
    (h : parseV f l = some x) :
    ∃ c r0, l = c :: r0
      ∧ (c = lbrace ∨ c = '[' ∨ c = '"' ∨ c = 't' ∨ c = 'f' ∨ c = 'n'
        ∨ c = Char.ofNat 45 ∨ isDigitJs c = true) := by
  cases f with
  | zero => exact Option.noConfusion h
  | succ f =>
    cases l with
    | nil => exact Option.noConfusion h
    | cons c r0 =>
      refine ⟨c, r0, rfl, ?_⟩
      by_cases h1 : c = lbrace
      · exact Or.inl h1
      by_cases h2 : c = '['
      · exact Or.inr (Or.inl h2)
      by_cases h3 : c = '"'
      · exact Or.inr (Or.inr (Or.inl h3))
      by_cases h4 : c = 't'
      · exact Or.inr (Or.inr (Or.inr (Or.inl h4)))
      by_cases h5 : c = 'f'
      · exact Or.inr (Or.inr (Or.inr (Or.inr (Or.inl h5))))
      by_cases h6 : c = 'n'
      · exact Or.inr (Or.inr (Or.inr (Or.inr (Or.inr (Or.inl h6)))))
      by_cases h7 : c = Char.ofNat 45
      · exact Or.inr (Or.inr (Or.inr (Or.inr (Or.inr (Or.inr (Or.inl h7))))))
      by_cases h8 : isDigitJs c = true
      · exact Or.inr (Or.inr (Or.inr (Or.inr (Or.inr (Or.inr (Or.inr h8))))))
      rw [parseV_none_of_bad_head h1 h2 h3 h4 h5 h6 h7 h8] at h
      exact Option.noConfusion h

theorem coreParse_parseV {t : List Char} {v : JsVal} (h : coreParse t = some v) :
    ∃ r, parseV (t.length + 2) (skipW t) = some (v, r) ∧ r.all isJsonWs = true := by
  rw [coreParse] at h
  cases hp : parseV (t.length + 2) (skipW t) with
  | none => rw [hp] at h; exact Option.noConfusion h
  | some pr =>
    obtain ⟨w, r⟩ := pr
    rw [hp] at h
    by_cases hr : r.all isJsonWs = true
    · have hv : some w = some v := by simpa [hr] using h
      injection hv with hv
      subst hv
      exact ⟨r, rfl, hr⟩
    · exfalso
      have : (none : Option JsVal) = some v := by simpa [hr] using h
      exact Option.noConfusion this

theorem isJsWs_of_isJsonWs {c : Char} (h : isJsonWs c = true) : isJsWs c = true := by
  simp only [isJsonWs, Bool.or_eq_true, decide_eq_true_eq] at h
  rcases h with ((rfl | rfl) | rfl) | rfl <;> rfl

theorem skipW_eq_self {l : List Char}
    (h : ∀ c, l.head? = some c → isJsWs c = false) : skipW l = l := by
  apply dropWhile_eq_self_of_head
  intro c hc
  cases hj : isJsonWs c with
  | false => rfl
  | true =>
    have := isJsWs_of_isJsonWs hj
    rw [h c hc] at this
    exact Bool.noConfusion this

theorem jsTrim_head_not_ws {l : List Char} {c : Char} (h : (jsTrim l).head? = some c) :
    isJsWs c = false := by
  rw [jsTrim] at h
  have hne : jsRTrim (jsLTrim l) ≠ [] := by
    intro hh
    rw [hh] at h
    exact Option.noConfusion h
  rw [jsRTrim_head? _ hne] at h
  exact jsLTrim_head_not_ws h

/-- A successful `JSON.parse` pins the shape of the trimmed text: non-empty,
starting with a JSON value-start character. -/
theorem jsonParseL_shape {l : List Char} {v : JsVal} (h : jsonParseL l = some v) :
    ∃ c r0, jsTrim l = c :: r0
      ∧ (c = lbrace ∨ c = '[' ∨ c = '"' ∨ c = 't' ∨ c = 'f' ∨ c = 'n'
        ∨ c = Char.ofNat 45 ∨ isDigitJs c = true) := by
  rw [jsonParseL] at h
  obtain ⟨r, hp, -⟩ := coreParse_parseV h
  rw [skipW_eq_self (fun c hc => jsTrim_head_not_ws hc)] at hp
  obtain ⟨c, r0, heq, hdisp⟩ := parseV_head hp
  exact ⟨c, r0, heq, hdisp⟩

/-- The region the fence-unwrap step cuts out of the string (the part of the
`fenceUnwrap` branch between the greedy `(\w*)?\s*` and the length bound). -/
def fenceInnerRegion (l : List Char) : List Char :=
  let afterOpen := l.drop 3
  let a := wordRun afterOpen + wsRun (afterOpen.drop (wordRun afterOpen))
  (afterOpen.drop a).take (l.length - 6 - a)

theorem fenceUnwrap_pos {l : List Char}
    (hc : (startsL l fenceMarker && endsL l fenceMarker && decide (6 ≤ l.length)) = true) :
    fenceUnwrap l =
      if (jsRTrim (fenceInnerRegion l)).isEmpty then l
      else jsTrim (jsRTrim (fenceInnerRegion l)) := by
  rw [fenceUnwrap, if_pos hc]
  rfl

theorem fenceInnerRegion_def (l : List Char) :
    fenceInnerRegion l =
      ((l.drop 3).drop
          (wordRun (l.drop 3) + wsRun ((l.drop 3).drop (wordRun (l.drop 3))))).take
        (l.length - 6 -
          (wordRun (l.drop 3) + wsRun ((l.drop 3).drop (wordRun (l.drop 3))))) := rfl

theorem getLast?_append_cons (l1 : List Char) (a : Char) (l2 : List Char) :
    (l1 ++ a :: l2).getLast? = (a :: l2).getLast? := by
  induction l1 with
  | nil => rfl
  | cons b t ih =>
    rw [List.cons_append, ← ih]
    cases h : t ++ a :: l2 with
    | nil => simp at h
    | cons x xs => rw [List.getLast?_cons_cons]

theorem fencedWrapL_length (tag j : List Char) :
    (fencedWrapL tag j).length = 8 + tag.length + j.length := by
  simp [fencedWrapL, fenceMarker] <;> omega

theorem fencedWrapL_assoc (tag j : List Char) :
    fencedWrapL tag j = (fenceMarker ++ tag ++ '\n' :: j ++ ['\n']) ++ fenceMarker := by
  simp [fencedWrapL]

theorem fencedWrapL_head? (tag j : List Char) :
    (fencedWrapL tag j).head? = some btick := rfl

theorem fencedWrapL_getLast? (tag j : List Char) :
    (fencedWrapL tag j).getLast? = some btick := by
  have hre : fencedWrapL tag j
      = (fenceMarker ++ tag ++ '\n' :: j ++ ['\n']) ++ btick :: [btick, btick] := by
    simp [fencedWrapL, fenceMarker]
  rw [hre, getLast?_append_cons]
  rfl

theorem fencedWrapL_startsL (tag j : List Char) :
    startsL (fencedWrapL tag j) fenceMarker = true := by
  simp [startsL, fencedWrapL, fenceMarker]

theorem fencedWrapL_endsL (tag j : List Char) :
    endsL (fencedWrapL tag j) fenceMarker = true := by
  have hdropEnds : (fencedWrapL tag j).drop
      ((fencedWrapL tag j).length - fenceMarker.length) = fenceMarker := by
    rw [fencedWrapL_assoc]
    have hl2 : ((fenceMarker ++ tag ++ '\n' :: j ++ ['\n']) ++ fenceMarker).length
        - fenceMarker.length = (fenceMarker ++ tag ++ '\n' :: j ++ ['\n']).length := by
      simp
      omega
    rw [hl2, List.drop_left]
  have h36 : fenceMarker.length ≤ (fencedWrapL tag j).length := by
    rw [fencedWrapL_length]
    simp only [fenceMarker, List.length_cons, List.length_nil]
    omega
  rw [endsL, hdropEnds, decide_eq_true (show fenceMarker = fenceMarker from rfl),
    decide_eq_true h36]
  rfl

/-- The value-start characters of a successful parse are never a backtick. -/
theorem dispatch_ne_btick {c : Char}
    (h : c = lbrace ∨ c = '[' ∨ c = '"' ∨ c = 't' ∨ c = 'f' ∨ c = 'n'
      ∨ c = Char.ofNat 45 ∨ isDigitJs c = true) : ¬c = btick := by
  intro hb
  subst hb
  rcases h with h | h | h | h | h | h | h | h <;> exact absurd h (by decide)

/-- Unwrapping a whole-string fence recovers exactly the trimmed wrapped text,
for any word-character language tag and non-blank content. -/
theorem fenceUnwrap_wrap {tag j : List Char} (ht : tag.all isWordChar = true)
    (hj : jsTrim j ≠ []) : fenceUnwrap (fencedWrapL tag j) = jsTrim j := by
  have htag : ∀ a ∈ tag, isWordChar a = true := List.all_eq_true.mp ht
  have hsplit : j.takeWhile isJsWs ++ j.dropWhile isJsWs = j :=
    List.takeWhile_append_dropWhile isJsWs j
  have hjLne : j.dropWhile isJsWs ≠ [] := by
    intro hh
    apply hj
    rw [jsTrim, jsLTrim, hh]
    rfl
  obtain ⟨c0, jR, hjLc⟩ := List.exists_cons_of_ne_nil hjLne
  have hc0 : isJsWs c0 = false := head?_dropWhile_not (by rw [hjLc]; rfl)
  have e0 : fencedWrapL tag j
      = fenceMarker ++ (tag ++ ('\n' :: (j ++ '\n' :: fenceMarker))) := by
    simp [fencedWrapL]
  have e1 : (fencedWrapL tag j).drop 3
      = tag ++ ('\n' :: (j ++ '\n' :: fenceMarker)) := by
    rw [e0, show (3 : Nat) = fenceMarker.length from rfl, List.drop_left]
  have h_word : wordRun (tag ++ ('\n' :: (j ++ '\n' :: fenceMarker))) = tag.length := by
    rw [wordRun, @takeWhile_all_append isWordChar tag ('\n' :: (j ++ '\n' :: fenceMarker))
      htag (fun c hc => by
        injection hc with hc
        rw [← hc]
        rfl)]
  have hassoc2 : '\n' :: (j ++ '\n' :: fenceMarker)
      = ('\n' :: j.takeWhile isJsWs) ++ ((c0 :: jR) ++ ('\n' :: fenceMarker)) := by
    conv_lhs => rw [← hsplit, hjLc]
    simp
  have h_ws : wsRun ('\n' :: (j ++ '\n' :: fenceMarker))
      = (j.takeWhile isJsWs).length + 1 := by
    rw [wsRun, hassoc2, @takeWhile_all_append isJsWs ('\n' :: j.takeWhile isJsWs)
      ((c0 :: jR) ++ ('\n' :: fenceMarker))
      (fun a ha => by
        rcases List.mem_cons.mp ha with h | h
        · subst h; rfl
        · exact List.mem_takeWhile_imp h)
      (fun c hc => by
        have he : ((c0 :: jR) ++ ('\n' :: fenceMarker)).head? = some c0 := rfl
        have hcc := he.symm.trans hc
        injection hcc with hcc
        subst hcc
        exact hc0)]
    simp
  have hassoc3 : tag ++ ('\n' :: (j ++ '\n' :: fenceMarker))
      = (tag ++ '\n' :: j.takeWhile isJsWs) ++ ((c0 :: jR) ++ ('\n' :: fenceMarker)) := by
    conv_lhs => rw [← hsplit, hjLc]
    simp
  have hlenpre : tag.length + ((j.takeWhile isJsWs).length + 1)
      = (tag ++ '\n' :: j.takeWhile isJsWs).length := by
    simp
  have h_dropA : (tag ++ ('\n' :: (j ++ '\n' :: fenceMarker))).drop
      (tag.length + ((j.takeWhile isJsWs).length + 1))
      = (c0 :: jR) ++ ('\n' :: fenceMarker) := by
    rw [hassoc3, hlenpre, List.drop_left]
  have hjlen : j.length = (j.takeWhile isJsWs).length + (jR.length + 1) := by
    conv_lhs => rw [← hsplit, hjLc]
    simp
  have h_count : (fencedWrapL tag j).length - 6
      - (tag.length + ((j.takeWhile isJsWs).length + 1)) = jR.length + 2 := by
    rw [fencedWrapL_length, hjlen]
    omega
  have h_take : ((c0 :: jR) ++ ('\n' :: fenceMarker)).take (jR.length + 2)
      = (c0 :: jR) ++ ['\n'] := by
    rw [show jR.length + 2 = (c0 :: jR).length + 1 from by simp, List.take_append]
    rfl
  have hregion : fenceInnerRegion (fencedWrapL tag j) = (c0 :: jR) ++ ['\n'] := by
    rw [fenceInnerRegion_def, e1, h_word, List.drop_left, h_ws, h_dropA, h_count, h_take]
  have h_inner : jsRTrim ((c0 :: jR) ++ ['\n']) = jsTrim j := by
    rw [jsRTrim_append_all_ws (fun c hc => by
      have hcn : c = '\n' := by simpa using hc
      rw [hcn]
      rfl), ← hjLc]
    rfl
  have h6 : 6 ≤ (fencedWrapL tag j).length := by
    rw [fencedWrapL_length]
    omega
  have hcond : (startsL (fencedWrapL tag j) fenceMarker
      && endsL (fencedWrapL tag j) fenceMarker
      && decide (6 ≤ (fencedWrapL tag j).length)) = true := by
    rw [fencedWrapL_startsL, fencedWrapL_endsL, decide_eq_true h6]
    rfl
  have hne : (jsTrim j).isEmpty = false := by
    cases hc : jsTrim j with
    | nil => exact absurd hc hj
    | cons a t => rfl
  rw [fenceUnwrap_pos hcond, hregion, h_inner,
    if_neg (by rw [hne]; exact Bool.false_ne_true)]
  exact jsTrim_idem j

theorem jsTrim_fencedWrapL (tag j : List Char) :
    jsTrim (fencedWrapL tag j) = fencedWrapL tag j := by
  apply jsTrim_eq_self
  · intro c hc
    rw [fencedWrapL_head?] at hc
    injection hc with hc
    subst hc
    rfl
  · intro c hc
    rw [fencedWrapL_getLast?] at hc
    injection hc with hc
    subst hc
    rfl

/-- Wrapping well-formed JSON in a whole-string fence does not change the
sanitized text. -/
theorem sanitizeL_fencedWrap {tag j : List Char} {v : JsVal}
    (ht : tag.all isWordChar = true) (hv : jsonParseL j = some v) :
    sanitizeL (fencedWrapL tag j) = sanitizeL j := by
  obtain ⟨c, r0, htrim, hdisp⟩ := jsonParseL_shape hv
  have hjne : jsTrim j ≠ [] := by
    rw [htrim]
    exact List.cons_ne_nil _ _
  have hfw : fenceUnwrap (jsTrim (fencedWrapL tag j)) = fenceUnwrap (jsTrim j) := by
    rw [jsTrim_fencedWrapL, fenceUnwrap_wrap ht hjne,
      @fenceUnwrap_eq_self_of_head (jsTrim j) c (by rw [htrim]; rfl)
        (dispatch_ne_btick hdisp)]
  simp only [sanitizeL, hfw]

theorem fencedWrap_toList (tag j : String) :
    (fencedWrap tag j).toList = fencedWrapL tag.toList j.toList := by
  simp only [fencedWrap, fencedWrapL, String.toList, String.data_append]
  simp [fenceMarker, btick]

set_option maxHeartbeats 2000000 in
theorem fence_example_parses :
    parseModelJson "```json\n\x7b\"a\":1\x7d\n```" = some (JsVal.obj [("a", JsVal.num 1 0)]) := rfl

/-- C7: wrapping a JSON string in a whole-string fenced code block (with any
word-character language tag, or none) leaves the parse result unchanged, and
the concrete fenced input with tag `json` and body `{"a":1}` decodes to the
object with field `a` holding the number 1. -/
theorem C7_fenced_block_invariance :
    (∀ (tag j : String) (v : JsVal), tag.toList.all isWordChar = true →
        jsonParse j = some v →
        parseModelJson (fencedWrap tag j) = parseModelJson j)
    ∧ parseModelJson "```json\n\x7b\"a\":1\x7d\n```"
      = some (JsVal.obj [("a", JsVal.num 1 0)]) := by
  constructor
  · intro tag j v ht hv
    rw [parseModelJson_as_afterSanitize, parseModelJson_as_afterSanitize,
      fencedWrap_toList, sanitizeL_fencedWrap ht hv]
  · exact fence_example_parses

set_option maxHeartbeats 1000000 in
theorem C7_witness :
    ("json".toList.all isWordChar = true
      ∧ jsonParse "\x7b\"a\":1\x7d" = some (JsVal.obj [("a", JsVal.num 1 0)]))
    ∧ parseModelJson (fencedWrap "json" "\x7b\"a\":1\x7d")
      = parseModelJson "\x7b\"a\":1\x7d" :=
  ⟨⟨by decide, by rfl⟩,
   C7_fenced_block_invariance.1 "json" "\x7b\"a\":1\x7d"
     (JsVal.obj [("a", JsVal.num 1 0)]) (by decide) (by rfl)⟩

/-!
## C5 — machine neutrality of parsed text
-/

/-- Characters that leave the brace scanner state unchanged outside a string. -/
def outChar (ch : Char) : Bool :=
  !(ch = '\\') && !(ch = '"') && !(ch = lbrace) && !(ch = rbrace)

/-- Characters that leave the brace scanner state unchanged inside a string. -/
def inChar (ch : Char) : Bool := !(ch = '\\') && !(ch = '"')

/-- The characters a JSON number token may consume. -/
def numChar (ch : Char) : Bool :=
  isDigitJs ch || ch = '-' || ch = '+' || ch = '.' || ch = 'e' || ch = 'E'

/-- Running the scanner from outside a string over `P` lands back outside,
shifting the depth by `dl`. -/
def NeutralD (dl : Int) (P : List Char) : Prop :=
  ∀ d : Int, runM lbrace rbrace ⟨false, false, d⟩ P = ⟨false, false, d + dl⟩

/-- Running the scanner from inside a string over `P` lands outside at the
same depth (the body of a string literal through its closing quote). -/
def StrNeutral (P : List Char) : Prop :=
  ∀ d : Int, runM lbrace rbrace ⟨true, false, d⟩ P = ⟨false, false, d⟩

theorem mstep_out {d : Int} {ch : Char} (h : outChar ch = true) :
    mstep lbrace rbrace ⟨false, false, d⟩ ch = ⟨false, false, d⟩ := by
  simp only [outChar, Bool.and_eq_true, Bool.not_eq_true', decide_eq_false_iff_not] at h
  obtain ⟨⟨⟨h1, h2⟩, h3⟩, h4⟩ := h
  rw [mstep]
  simp [h1, h2, h3, h4]

theorem mstep_in {d : Int} {ch : Char} (h : inChar ch = true) :
    mstep lbrace rbrace ⟨true, false, d⟩ ch = ⟨true, false, d⟩ := by
  simp only [inChar, Bool.and_eq_true, Bool.not_eq_true', decide_eq_false_iff_not] at h
  obtain ⟨h1, h2⟩ := h
  rw [mstep]
  simp [h1, h2]

theorem mstep_lbrace {d : Int} :
    mstep lbrace rbrace ⟨false, false, d⟩ lbrace = ⟨false, false, d + 1⟩ := by
  rw [mstep]
  simp [show ¬(lbrace = '\\') from by decide, show ¬(lbrace = '"') from by decide,
    show ¬(lbrace = rbrace) from by decide]

theorem mstep_rbrace {d : Int} :
    mstep lbrace rbrace ⟨false, false, d⟩ rbrace = ⟨false, false, d - 1⟩ := by
  rw [mstep]
  simp [show ¬(rbrace = '\\') from by decide, show ¬(rbrace = '"') from by decide,
    show ¬(rbrace = lbrace) from by decide]

theorem mstep_quote_open {d : Int} :
    mstep lbrace rbrace ⟨false, false, d⟩ '"' = ⟨true, false, d⟩ := by
  rw [mstep]
  simp [show ¬('"' = '\\') from by decide, show ¬('"' = lbrace) from by decide,
    show ¬('"' = rbrace) from by decide]

theorem mstep_quote_close {d : Int} :
    mstep lbrace rbrace ⟨true, false, d⟩ '"' = ⟨false, false, d⟩ := by
  rw [mstep]
  simp [show ¬('"' = '\\') from by decide, show ¬('"' = lbrace) from by decide,
    show ¬('"' = rbrace) from by decide]

theorem mstep_bs {b : Bool} {d : Int} :
    mstep lbrace rbrace ⟨b, false, d⟩ '\\' = ⟨b, true, d⟩ := by
  rw [mstep]
  simp

theorem mstep_esc' {b : Bool} {d : Int} {ch : Char} :
    mstep lbrace rbrace ⟨b, true, d⟩ ch = ⟨b, false, d⟩ := by
  rw [mstep]
  simp

theorem runM_append (o c : Char) (st : MSt) (a b : List Char) :
    runM o c st (a ++ b) = runM o c (runM o c st a) b :=
  List.foldl_append _ _ _ _

theorem NeutralD_nil : NeutralD 0 [] := by
  intro d
  show MSt.mk false false d = ⟨false, false, d + 0⟩
  rw [Int.add_zero]

theorem NeutralD_append {d1 d2 : Int} {P1 P2 : List Char}
    (h1 : NeutralD d1 P1) (h2 : NeutralD d2 P2) : NeutralD (d1 + d2) (P1 ++ P2) := by
  intro d
  rw [runM_append, h1, h2, Int.add_assoc]

theorem NeutralD_cons_out {dl : Int} {ch : Char} {P : List Char}
    (h : outChar ch = true) (hP : NeutralD dl P) : NeutralD dl (ch :: P) := by
  intro d
  rw [runM_cons, mstep_out h, hP]

theorem NeutralD_all_out {P : List Char} (h : P.all outChar = true) : NeutralD 0 P := by
  induction P with
  | nil => exact NeutralD_nil
  | cons a t ih =>
    rw [List.all_cons, Bool.and_eq_true] at h
    exact NeutralD_cons_out h.1 (ih h.2)

theorem NeutralD_cons_lbrace {dl : Int} {P : List Char} (hP : NeutralD dl P) :
    NeutralD (1 + dl) (lbrace :: P) := by
  intro d
  rw [runM_cons, mstep_lbrace, hP]
  congr 1
  omega

theorem NeutralD_cons_rbrace {dl : Int} {P : List Char} (hP : NeutralD dl P) :
    NeutralD (dl - 1) (rbrace :: P) := by
  intro d
  rw [runM_cons, mstep_rbrace, hP]
  congr 1
  omega

theorem NeutralD_quote_str {P : List Char} (hP : StrNeutral P) :
    NeutralD 0 ('"' :: P) := by
  intro d
  rw [runM_cons, mstep_quote_open, hP]
  congr 1
  omega

theorem StrNeutral_quote : StrNeutral ['"'] := by
  intro d
  show runM lbrace rbrace ⟨true, false, d⟩ ('"' :: []) = ⟨false, false, d⟩
  rw [runM_cons, mstep_quote_close]
  rfl

theorem StrNeutral_cons_in {ch : Char} {P : List Char}
    (h : inChar ch = true) (hP : StrNeutral P) : StrNeutral (ch :: P) := by
  intro d
  rw [runM_cons, mstep_in h, hP]

theorem StrNeutral_esc {e : Char} {P : List Char} (hP : StrNeutral P) :
    StrNeutral ('\\' :: e :: P) := by
  intro d
  rw [runM_cons, mstep_bs, runM_cons, mstep_esc', hP]

theorem jsonWs_out {ch : Char} (h : isJsonWs ch = true) : outChar ch = true := by
  simp only [isJsonWs, Bool.or_eq_true, decide_eq_true_eq] at h
  rcases h with ((rfl | rfl) | rfl) | rfl <;> decide

theorem digit_out {ch : Char} (h : isDigitJs ch = true) : outChar ch = true := by
  rw [isDigitJs, Bool.and_eq_true, decide_eq_true_eq, decide_eq_true_eq] at h
  rw [outChar]
  by_cases h1 : ch = '\\'
  · subst h1; exact absurd h (by decide)
  by_cases h2 : ch = '"'
  · subst h2; exact absurd h (by decide)
  by_cases h3 : ch = lbrace
  · subst h3; exact absurd h (by decide)
  by_cases h4 : ch = rbrace
  · subst h4; exact absurd h (by decide)
  simp [h1, h2, h3, h4]

theorem numChar_out {ch : Char} (h : numChar ch = true) : outChar ch = true := by
  simp only [numChar, Bool.or_eq_true, decide_eq_true_eq] at h
  rcases h with ((((hd | rfl) | rfl) | rfl) | rfl) | rfl
  · exact digit_out hd
  all_goals decide

theorem hexVal_in {ch : Char} {a : Nat} (h : hexVal ch = some a) : inChar ch = true := by
  by_cases h1 : ch = '\\'
  · subst h1
    rw [show hexVal '\\' = none from rfl] at h
    exact Option.noConfusion h
  by_cases h2 : ch = '"'
  · subst h2
    rw [show hexVal '"' = none from rfl] at h
    exact Option.noConfusion h
  simp [inChar, h1, h2]

theorem strOrd_in {ch : Char} (h1 : ¬ch = '"') (h2 : ¬ch = '\\') : inChar ch = true := by
  simp [inChar, h1, h2]

theorem takeWhile_digits_num (x : List Char) :
    (x.takeWhile isDigitJs).all numChar = true :=
  List.all_eq_true.mpr (fun ch hch => by
    simp [numChar, List.mem_takeWhile_imp hch])

theorem skipW_decomp (l : List Char) :
    ∃ P, l = P ++ skipW l ∧ NeutralD 0 P :=
  ⟨l.takeWhile isJsonWs, (List.takeWhile_append_dropWhile _ _).symm,
    NeutralD_all_out (List.all_eq_true.mpr
      (fun ch hch => jsonWs_out (List.mem_takeWhile_imp hch)))⟩

theorem frac_decomp {x : List Char} {fd l3 : List Char}
    (h : (match x with
      | '.' :: r2 =>
        let fd := r2.takeWhile isDigitJs
        if fd.isEmpty then none else some (fd, r2.dropWhile isDigitJs)
      | _ => some ([], x)) = some (fd, l3)) :
    ∃ P, x = P ++ l3 ∧ P.all numChar = true := by
  split at h
  · rename_i r2
    simp only [] at h
    split at h
    · exact Option.noConfusion h
    · rw [Option.some.injEq, Prod.mk.injEq] at h
      obtain ⟨hfd, hl3⟩ := h
      subst hl3
      refine ⟨'.' :: r2.takeWhile isDigitJs, ?_, ?_⟩
      · rw [List.cons_append, List.takeWhile_append_dropWhile]
      · rw [List.all_cons, takeWhile_digits_num]
        decide
  · rw [Option.some.injEq, Prod.mk.injEq] at h
    obtain ⟨hfd, hl3⟩ := h
    subst hl3
    exact ⟨[], rfl, rfl⟩

theorem exp_decomp {l3 : List Char} {ev : Int} {l4 : List Char}
    (h : (match l3 with
      | e :: r3 =>
        if e = 'e' || e = 'E' then
          let sp : Int × List Char := match r3 with
            | '+' :: rr => (1, rr)
            | '-' :: rr => (-1, rr)
            | _ => (1, r3)
          let ed := sp.2.takeWhile isDigitJs
          if ed.isEmpty then none
          else some (sp.1 * (digitsToNat ed : Int), sp.2.dropWhile isDigitJs)
        else some (0, l3)
      | [] => some (0, [])) = some (ev, l4)) :
    ∃ P, l3 = P ++ l4 ∧ P.all numChar = true := by
  split at h
  · rename_i e0 r3
    split at h
    · rename_i hcond
      have he0 : numChar e0 = true := by
        rcases Bool.or_eq_true_iff.mp hcond with h1 | h1
        · rw [decide_eq_true_eq] at h1
          subst h1
          decide
        · rw [decide_eq_true_eq] at h1
          subst h1
          decide
      split at h
      · rename_i rr
        simp only [] at h
        split at h
        · exact Option.noConfusion h
        · rw [Option.some.injEq, Prod.mk.injEq] at h
          obtain ⟨hv, hl4⟩ := h
          subst hl4
          refine ⟨e0 :: '+' :: rr.takeWhile isDigitJs, ?_, ?_⟩
          · rw [List.cons_append, List.cons_append, List.takeWhile_append_dropWhile]
          · rw [List.all_cons, List.all_cons, takeWhile_digits_num, he0]
            decide
      · rename_i rr
        simp only [] at h
        split at h
        · exact Option.noConfusion h
        · rw [Option.some.injEq, Prod.mk.injEq] at h
          obtain ⟨hv, hl4⟩ := h
          subst hl4
          refine ⟨e0 :: '-' :: rr.takeWhile isDigitJs, ?_, ?_⟩
          · rw [List.cons_append, List.cons_append, List.takeWhile_append_dropWhile]
          · rw [List.all_cons, List.all_cons, takeWhile_digits_num, he0]
            decide
      · simp only [] at h
        split at h
        · exact Option.noConfusion h
        · rw [Option.some.injEq, Prod.mk.injEq] at h
          obtain ⟨hv, hl4⟩ := h
          subst hl4
          refine ⟨e0 :: r3.takeWhile isDigitJs, ?_, ?_⟩
          · rw [List.cons_append, List.takeWhile_append_dropWhile]
          · rw [List.all_cons, takeWhile_digits_num, he0]
            rfl
    · rw [Option.some.injEq, Prod.mk.injEq] at h
      obtain ⟨hv, hl4⟩ := h
      subst hl4
      exact ⟨[], rfl, rfl⟩
  · rw [Option.some.injEq, Prod.mk.injEq] at h
    obtain ⟨hv, hl4⟩ := h
    subst hl4
    exact ⟨[], rfl, rfl⟩

/-- A successful number parse consumes only number characters. -/
theorem parseNum_decomp {l : List Char} {q : Int × Int} {rest : List Char}
    (h : parseNum l = some (q, rest)) :
    ∃ P, l = P ++ rest ∧ P.all numChar = true := by
  rw [parseNum.eq_def] at h
  split at h
  · rename_i rr
    simp only [] at h
    split at h
    · rename_i c r
      split at h
      · exact Option.noConfusion h
      · rename_i hdig
        have hd : isDigitJs c = true := by simpa using hdig
        by_cases hz : c = '0'
        · subst hz
          simp only [eq_self_iff_true, if_true] at h
          split at h
          · exact Option.noConfusion h
          · rename_i fd l3 hfr
            split at h
            · exact Option.noConfusion h
            · rename_i ev l4 hex
              rw [Option.some.injEq, Prod.mk.injEq] at h
              obtain ⟨hq, hrest⟩ := h
              subst hrest
              obtain ⟨P1, hP1, hP1a⟩ := frac_decomp hfr
              obtain ⟨P2, hP2, hP2a⟩ := exp_decomp hex
              refine ⟨'-' :: '0' :: (P1 ++ P2), ?_, ?_⟩
              · simp only [List.cons_append, List.append_assoc]
                rw [hP1, hP2]
              · rw [List.all_cons, List.all_cons, List.all_append, hP1a, hP2a]
                decide
        · simp only [if_neg hz] at h
          split at h
          · exact Option.noConfusion h
          · rename_i fd l3 hfr
            split at h
            · exact Option.noConfusion h
            · rename_i ev l4 hex
              rw [Option.some.injEq, Prod.mk.injEq] at h
              obtain ⟨hq, hrest⟩ := h
              subst hrest
              obtain ⟨P1, hP1, hP1a⟩ := frac_decomp hfr
              obtain ⟨P2, hP2, hP2a⟩ := exp_decomp hex
              refine ⟨'-' :: c :: (r.takeWhile isDigitJs ++ (P1 ++ P2)), ?_, ?_⟩
              · simp only [List.cons_append, List.append_assoc]
                conv_lhs => rw [← List.takeWhile_append_dropWhile isDigitJs r, hP1, hP2]
              · rw [List.all_cons, List.all_cons, List.all_append, List.all_append,
                  takeWhile_digits_num, hP1a, hP2a]
                simp [numChar, hd]
    · exact Option.noConfusion h
  · rename_i hne
    simp only [] at h
    split at h
    · rename_i c r
      split at h
      · exact Option.noConfusion h
      · rename_i hdig
        have hd : isDigitJs c = true := by simpa using hdig
        by_cases hz : c = '0'
        · subst hz
          simp only [eq_self_iff_true, if_true] at h
          split at h
          · exact Option.noConfusion h
          · rename_i fd l3 hfr
            split at h
            · exact Option.noConfusion h
            · rename_i ev l4 hex
              rw [Option.some.injEq, Prod.mk.injEq] at h
              obtain ⟨hq, hrest⟩ := h
              subst hrest
              obtain ⟨P1, hP1, hP1a⟩ := frac_decomp hfr
              obtain ⟨P2, hP2, hP2a⟩ := exp_decomp hex
              refine ⟨'0' :: (P1 ++ P2), ?_, ?_⟩
              · simp only [List.cons_append, List.append_assoc]
                rw [hP1, hP2]
              · rw [List.all_cons, List.all_append, hP1a, hP2a]
                decide
        · simp only [if_neg hz] at h
          split at h
          · exact Option.noConfusion h
          · rename_i fd l3 hfr
            split at h
            · exact Option.noConfusion h
            · rename_i ev l4 hex
              rw [Option.some.injEq, Prod.mk.injEq] at h
              obtain ⟨hq, hrest⟩ := h
              subst hrest
              obtain ⟨P1, hP1, hP1a⟩ := frac_decomp hfr
              obtain ⟨P2, hP2, hP2a⟩ := exp_decomp hex
              refine ⟨c :: (r.takeWhile isDigitJs ++ (P1 ++ P2)), ?_, ?_⟩
              · simp only [List.cons_append, List.append_assoc]
                conv_lhs => rw [← List.takeWhile_append_dropWhile isDigitJs r, hP1, hP2]
              · rw [List.all_cons, List.all_append, List.all_append,
                  takeWhile_digits_num, hP1a, hP2a]
                simp [numChar, hd]
    · exact Option.noConfusion h

theorem strBody_map_case {X : Char} {fuel : Nat} {R cs rest : List Char}
    (h : ((fun p => (X :: p.1, p.2)) <$> parseStrBody fuel R) = some (cs, rest))
    (ih : ∀ {r cs rest}, parseStrBody fuel r = some (cs, rest) →
      ∃ P, r = P ++ rest ∧ StrNeutral P) :
    ∃ P, R = P ++ rest ∧ StrNeutral P := by
  cases hsb : parseStrBody fuel R with
  | none =>
    rw [hsb] at h
    exact Option.noConfusion h
  | some pr =>
    obtain ⟨cs2, rest2⟩ := pr
    rw [hsb] at h
    have h2 : some ((X :: cs2 : List Char), rest2) = some (cs, rest) := h
    rw [Option.some.injEq, Prod.mk.injEq] at h2
    obtain ⟨h3, h4⟩ := h2
    subst h4
    exact ih hsb

/-- A successful string-body parse consumes a string-neutral prefix: the
scanner enters it inside a string and leaves it outside at the same depth. -/
theorem parseStrBody_decomp :
    ∀ (fuel : Nat) {r cs rest : List Char},
      parseStrBody fuel r = some (cs, rest) →
      ∃ P, r = P ++ rest ∧ StrNeutral P := by
  intro fuel
  induction fuel with
  | zero =>
    intro r cs rest h
    exact Option.noConfusion h
  | succ fuel ih =>
    intro r cs rest h
    cases r with
    | nil => exact Option.noConfusion h
    | cons c rr =>
      by_cases hq : c = '"'
      · subst hq
        have he : parseStrBody (fuel + 1) ('"' :: rr) = some ([], rr) := rfl
        rw [he, Option.some.injEq, Prod.mk.injEq] at h
        obtain ⟨hcs, hrest⟩ := h
        subst hrest
        exact ⟨['"'], rfl, StrNeutral_quote⟩
      · by_cases hbs : c = '\\'
        · subst hbs
          cases rr with
          | nil => exact Option.noConfusion h
          | cons e r2 =>
            rw [parseStrBody.eq_def] at h
            simp only [] at h
            rw [if_neg (show ¬(('\\' : Char) = '"') from by decide)] at h
            simp only [if_true] at h
            split at h
            · obtain ⟨P, hPe, hPs⟩ := strBody_map_case h ih
              exact ⟨'\\' :: e :: P,
                by rw [hPe, List.cons_append, List.cons_append], StrNeutral_esc hPs⟩
            · split at h
              · obtain ⟨P, hPe, hPs⟩ := strBody_map_case h ih
                exact ⟨'\\' :: e :: P,
                  by rw [hPe, List.cons_append, List.cons_append], StrNeutral_esc hPs⟩
              · split at h
                · obtain ⟨P, hPe, hPs⟩ := strBody_map_case h ih
                  exact ⟨'\\' :: e :: P,
                    by rw [hPe, List.cons_append, List.cons_append], StrNeutral_esc hPs⟩
                · split at h
                  · obtain ⟨P, hPe, hPs⟩ := strBody_map_case h ih
                    exact ⟨'\\' :: e :: P,
                      by rw [hPe, List.cons_append, List.cons_append], StrNeutral_esc hPs⟩
                  · split at h
                    · obtain ⟨P, hPe, hPs⟩ := strBody_map_case h ih
                      exact ⟨'\\' :: e :: P,
                        by rw [hPe, List.cons_append, List.cons_append], StrNeutral_esc hPs⟩
                    · split at h
                      · obtain ⟨P, hPe, hPs⟩ := strBody_map_case h ih
                        exact ⟨'\\' :: e :: P,
                          by rw [hPe, List.cons_append, List.cons_append],
                          StrNeutral_esc hPs⟩
                      · split at h
                        · split at h
                          · rename_i g1 g2 g3 g4 r3
                            split at h
                            · rename_i a b c2 d hg1 hg2 hg3 hg4
                              split at h
                              · exact Option.noConfusion h
                              · obtain ⟨P, hPe, hPs⟩ := strBody_map_case h ih
                                refine ⟨'\\' :: e :: g1 :: g2 :: g3 :: g4 :: P, ?_, ?_⟩
                                · rw [hPe]
                                  simp only [List.cons_append]
                                · exact StrNeutral_esc (StrNeutral_cons_in (hexVal_in hg1)
                                    (StrNeutral_cons_in (hexVal_in hg2)
                                      (StrNeutral_cons_in (hexVal_in hg3)
                                        (StrNeutral_cons_in (hexVal_in hg4) hPs))))
                            · exact Option.noConfusion h
                          · exact Option.noConfusion h
                        · exact Option.noConfusion h
        · rw [parseStrBody.eq_def] at h
          simp only [] at h
          rw [if_neg hq, if_neg hbs] at h
          split at h
          · exact Option.noConfusion h
          · obtain ⟨P, hPe, hPs⟩ := strBody_map_case h ih
            exact ⟨c :: P, by rw [hPe, List.cons_append],
              StrNeutral_cons_in (strOrd_in hq hbs) hPs⟩

theorem NeutralD_cast {d1 d2 : Int} {P : List Char} (h : d1 = d2)
    (hp : NeutralD d1 P) : NeutralD d2 P := h ▸ hp

theorem all_out_of_all_num {P : List Char} (h : P.all numChar = true) :
    P.all outChar = true :=
  List.all_eq_true.mpr (fun ch hch => numChar_out (List.all_eq_true.mp h ch hch))

theorem NeutralD_colon : NeutralD 0 [':'] := NeutralD_cons_out (by decide) NeutralD_nil

theorem NeutralD_comma : NeutralD 0 [','] := NeutralD_cons_out (by decide) NeutralD_nil

theorem NeutralD_rbrace1 : NeutralD (0 - 1) [rbrace] := NeutralD_cons_rbrace NeutralD_nil

theorem NeutralD_rbrack1 : NeutralD 0 [']'] := NeutralD_cons_out (by decide) NeutralD_nil

/-- Lemma B: a successful parse consumes a scanner-neutral prefix — the
string-aware brace scanner leaves a value at its entry depth, and leaves an
object-member run one level down (its closing brace). -/
theorem parse_neutral (fuel : Nat) :
    (∀ {l : List Char} {v : JsVal} {r : List Char}, parseV fuel l = some (v, r) →
        ∃ P, l = P ++ r ∧ NeutralD 0 P)
    ∧ (∀ {l : List Char} {acc ps : List (String × JsVal)} {r : List Char},
        parseMems fuel l acc = some (ps, r) → ∃ P, l = P ++ r ∧ NeutralD (-1) P)
    ∧ (∀ {l : List Char} {acc es : List JsVal} {r : List Char},
        parseElems fuel l acc = some (es, r) → ∃ P, l = P ++ r ∧ NeutralD 0 P) := by
  induction fuel with
  | zero =>
    refine ⟨?_, ?_, ?_⟩
    · intro l v r h
      exact Option.noConfusion h
    · intro l acc ps r h
      exact Option.noConfusion h
    · intro l acc es r h
      exact Option.noConfusion h
  | succ fuel ih =>
    obtain ⟨ihV, ihM, ihE⟩ := ih
    refine ⟨?_, ?_, ?_⟩
    · intro l v r h
      cases l with
      | nil => exact Option.noConfusion h
      | cons c rr =>
        rw [parseV.eq_def] at h
        simp only [] at h
        split at h
        · rename_i hc
          subst hc
          split at h
          · rename_i c2 r2 hsw
            split at h
            · rename_i hc2
              subst hc2
              rw [Option.some.injEq, Prod.mk.injEq] at h
              obtain ⟨hv, hr⟩ := h
              subst hr
              obtain ⟨W, hW, hWn⟩ := skipW_decomp rr
              refine ⟨lbrace :: (W ++ [rbrace]), ?_, ?_⟩
              · conv_lhs => rw [hW, hsw]
                simp only [List.cons_append, List.append_assoc, List.singleton_append,
                  List.nil_append]
              · exact NeutralD_cast (by decide)
                  (NeutralD_cons_lbrace (NeutralD_append hWn NeutralD_rbrace1))
            · split at h
              · rename_i ps rest hpm
                rw [Option.some.injEq, Prod.mk.injEq] at h
                obtain ⟨hv, hr⟩ := h
                subst hr
                obtain ⟨Pm, hPm, hPmn⟩ := ihM hpm
                obtain ⟨W, hW, hWn⟩ := skipW_decomp rr
                refine ⟨lbrace :: (W ++ Pm), ?_, ?_⟩
                · conv_lhs => rw [hW, hsw, hPm]
                  simp only [List.cons_append, List.append_assoc]
                · exact NeutralD_cast (by decide)
                    (NeutralD_cons_lbrace (NeutralD_append hWn hPmn))
              · exact Option.noConfusion h
          · exact Option.noConfusion h
        · split at h
          · rename_i hc
            subst hc
            split at h
            · rename_i r2 hsw
              rw [Option.some.injEq, Prod.mk.injEq] at h
              obtain ⟨hv, hr⟩ := h
              subst hr
              obtain ⟨W, hW, hWn⟩ := skipW_decomp rr
              refine ⟨'[' :: (W ++ [']']), ?_, ?_⟩
              · conv_lhs => rw [hW, hsw]
                simp only [List.cons_append, List.append_assoc, List.singleton_append,
                  List.nil_append]
              · exact NeutralD_cast (by decide)
                  (NeutralD_cons_out (by decide) (NeutralD_append hWn NeutralD_rbrack1))
            · rename_i l2 hsw
              split at h
              · rename_i es rest hpe
                rw [Option.some.injEq, Prod.mk.injEq] at h
                obtain ⟨hv, hr⟩ := h
                subst hr
                obtain ⟨Pe, hPe, hPen⟩ := ihE hpe
                obtain ⟨W, hW, hWn⟩ := skipW_decomp rr
                refine ⟨'[' :: (W ++ Pe), ?_, ?_⟩
                · conv_lhs => rw [hW, hPe]
                  simp only [List.cons_append, List.append_assoc]
                · exact NeutralD_cast (by decide)
                    (NeutralD_cons_out (by decide) (NeutralD_append hWn hPen))
              · exact Option.noConfusion h
          · split at h
            · rename_i hc
              subst hc
              split at h
              · rename_i cs rest hsb
                rw [Option.some.injEq, Prod.mk.injEq] at h
                obtain ⟨hv, hr⟩ := h
                subst hr
                obtain ⟨Ps, hPs, hSn⟩ := parseStrBody_decomp _ hsb
                refine ⟨'"' :: Ps, ?_, NeutralD_quote_str hSn⟩
                rw [hPs, List.cons_append]
              · exact Option.noConfusion h
            · split at h
              · rename_i hc
                subst hc
                split at h
                · rename_i htk
                  rw [Option.some.injEq, Prod.mk.injEq] at h
                  obtain ⟨hv, hr⟩ := h
                  subst hr
                  refine ⟨('t' :: rr).take 4, (List.take_append_drop _ _).symm, ?_⟩
                  rw [htk]
                  exact NeutralD_all_out (by decide)
                · exact Option.noConfusion h
              · split at h
                · rename_i hc
                  subst hc
                  split at h
                  · rename_i htk
                    rw [Option.some.injEq, Prod.mk.injEq] at h
                    obtain ⟨hv, hr⟩ := h
                    subst hr
                    refine ⟨('f' :: rr).take 5, (List.take_append_drop _ _).symm, ?_⟩
                    rw [htk]
                    exact NeutralD_all_out (by decide)
                  · exact Option.noConfusion h
                · split at h
                  · rename_i hc
                    subst hc
                    split at h
                    · rename_i htk
                      rw [Option.some.injEq, Prod.mk.injEq] at h
                      obtain ⟨hv, hr⟩ := h
                      subst hr
                      refine ⟨('n' :: rr).take 4, (List.take_append_drop _ _).symm, ?_⟩
                      rw [htk]
                      exact NeutralD_all_out (by decide)
                    · exact Option.noConfusion h
                  · split at h
                    · split at h
                      · rename_i qq rest hpn
                        rw [Option.some.injEq, Prod.mk.injEq] at h
                        obtain ⟨hv, hr⟩ := h
                        subst hr
                        obtain ⟨Pn, hPn, hPna⟩ := parseNum_decomp hpn
                        exact ⟨Pn, hPn, NeutralD_all_out (all_out_of_all_num hPna)⟩
                      · exact Option.noConfusion h
                    · exact Option.noConfusion h
    · intro l acc ps r h
      rw [parseMems.eq_def] at h
      simp only [] at h
      split at h
      · rename_i rr
        split at h
        · rename_i kcs r1 hsb
          split at h
          · rename_i r2 hsw1
            split at h
            · rename_i v2 r3 hpv
              split at h
              · rename_i r4 hsw3
                obtain ⟨Pm, hPm, hPmn⟩ := ihM h
                obtain ⟨Ps, hPs, hSn⟩ := parseStrBody_decomp _ hsb
                obtain ⟨Pv, hPv, hPvn⟩ := ihV hpv
                obtain ⟨W1, hW1, hW1n⟩ := skipW_decomp r1
                obtain ⟨W2, hW2, hW2n⟩ := skipW_decomp r2
                obtain ⟨W3, hW3, hW3n⟩ := skipW_decomp r3
                obtain ⟨W4, hW4, hW4n⟩ := skipW_decomp r4
                refine ⟨('"' :: Ps) ++ W1 ++ [':'] ++ W2 ++ Pv ++ W3 ++ [','] ++ W4 ++ Pm,
                  ?_, ?_⟩
                · conv_lhs => rw [hPs, hW1, hsw1, hW2, hPv, hW3, hsw3, hW4, hPm]
                  simp only [List.cons_append, List.append_assoc, List.singleton_append,
                    List.nil_append]
                · exact NeutralD_cast (by decide)
                    (NeutralD_append (NeutralD_append (NeutralD_append (NeutralD_append
                      (NeutralD_append (NeutralD_append (NeutralD_append (NeutralD_append
                        (NeutralD_quote_str hSn) hW1n) NeutralD_colon) hW2n) hPvn)
                          hW3n) NeutralD_comma) hW4n) hPmn)
              · rename_i c5 r5 hsw3
                split at h
                · rename_i hc5
                  subst hc5
                  rw [Option.some.injEq, Prod.mk.injEq] at h
                  obtain ⟨hv, hr⟩ := h
                  subst hr
                  obtain ⟨Ps, hPs, hSn⟩ := parseStrBody_decomp _ hsb
                  obtain ⟨Pv, hPv, hPvn⟩ := ihV hpv
                  obtain ⟨W1, hW1, hW1n⟩ := skipW_decomp r1
                  obtain ⟨W2, hW2, hW2n⟩ := skipW_decomp r2
                  obtain ⟨W3, hW3, hW3n⟩ := skipW_decomp r3
                  refine ⟨('"' :: Ps) ++ W1 ++ [':'] ++ W2 ++ Pv ++ W3 ++ [rbrace], ?_, ?_⟩
                  · conv_lhs => rw [hPs, hW1, hsw1, hW2, hPv, hW3, hsw3]
                    simp only [List.cons_append, List.append_assoc, List.singleton_append,
                    List.nil_append]
                  · exact NeutralD_cast (by decide)
                      (NeutralD_append (NeutralD_append (NeutralD_append (NeutralD_append
                        (NeutralD_append (NeutralD_append (NeutralD_quote_str hSn) hW1n)
                          NeutralD_colon) hW2n) hPvn) hW3n) NeutralD_rbrace1)
                · exact Option.noConfusion h
              · exact Option.noConfusion h
            · exact Option.noConfusion h
          · exact Option.noConfusion h
        · exact Option.noConfusion h
      · exact Option.noConfusion h
    · intro l acc es r h
      rw [parseElems.eq_def] at h
      simp only [] at h
      split at h
      · rename_i v2 r2 hpv
        split at h
        · rename_i r3 hsw
          obtain ⟨Pe, hPe, hPen⟩ := ihE h
          obtain ⟨Pv, hPv, hPvn⟩ := ihV hpv
          obtain ⟨W2, hW2, hW2n⟩ := skipW_decomp r2
          obtain ⟨W3, hW3, hW3n⟩ := skipW_decomp r3
          refine ⟨Pv ++ W2 ++ [','] ++ W3 ++ Pe, ?_, ?_⟩
          · conv_lhs => rw [hPv, hW2, hsw, hW3, hPe]
            simp only [List.cons_append, List.append_assoc, List.singleton_append,
              List.nil_append]
          · exact NeutralD_cast (by decide)
              (NeutralD_append (NeutralD_append (NeutralD_append (NeutralD_append
                hPvn hW2n) NeutralD_comma) hW3n) hPen)
        · rename_i r3 hsw
          rw [Option.some.injEq, Prod.mk.injEq] at h
          obtain ⟨hv, hr⟩ := h
          subst hr
          obtain ⟨Pv, hPv, hPvn⟩ := ihV hpv
          obtain ⟨W2, hW2, hW2n⟩ := skipW_decomp r2
          refine ⟨Pv ++ W2 ++ [']'], ?_, ?_⟩
          · conv_lhs => rw [hPv, hW2, hsw]
            simp only [List.cons_append, List.append_assoc, List.singleton_append,
              List.nil_append]
          · exact NeutralD_cast (by decide)
              (NeutralD_append (NeutralD_append hPvn hW2n) NeutralD_rbrack1)
        · exact Option.noConfusion h
      · exact Option.noConfusion h

/-- "The nesting counter never returns to zero": at every prefix of the text
the string-aware brace scanner is away from depth zero. -/
def neverZero (z : List Char) : Bool :=
  (List.range z.length).all
    (fun k => !((runM lbrace rbrace st0 (z.take (k + 1))).depth = 0))

theorem neverZero_unpack {z : List Char} (h : neverZero z = true) :
    ∀ k, k < z.length → (runM lbrace rbrace st0 (z.take (k + 1))).depth ≠ 0 := by
  intro k hk hz
  rw [neverZero, List.all_eq_true] at h
  have := h k (List.mem_range.mpr hk)
  rw [hz] at this
  simp at this

theorem exLoop_none (o c : Char) (full : List Char) :
    ∀ (q : List Char) (i : Nat) (st : MSt),
      (∀ k, k < q.length → (runM o c st (q.take (k + 1))).depth ≠ 0) →
      exLoop o c full q i st = none := by
  intro q
  induction q with
  | nil => intro i st _; rfl
  | cons ch q' ih =>
    intro i st h
    rw [exLoop_cons]
    have h0 : (mstep o c st ch).depth ≠ 0 := by
      have := h 0 (by simp)
      simpa [List.take_succ_cons, runM] using this
    have hcond : (!st.esc && !(ch = '\\') && (mstep o c st ch).depth = 0 &&
        initialFound full o i) = false := by
      cases hb : decide ((mstep o c st ch).depth = 0) with
      | false => simp [hb]
      | true => exact absurd (of_decide_eq_true hb) h0
    rw [hcond]
    show exLoop o c full q' (i + 1) (mstep o c st ch) = none
    apply ih
    intro k hk
    have := h (k + 1) (by simpa using Nat.succ_lt_succ hk)
    simpa [List.take_succ_cons, runM] using this

theorem extractRegion_neverZero {z : List Char}
    (hh : z.head? = some lbrace) (hnz : neverZero z = true) :
    extractRegion z = none := by
  have hlt : jsLTrim z = z := by
    apply dropWhile_eq_self_of_head
    intro c0 hc0
    rw [hh] at hc0
    injection hc0 with hc0
    rw [← hc0]
    rfl
  show (match (jsLTrim z).head? with
    | some c0 =>
      if c0 = lbrace then (exLoop lbrace rbrace z z 0 ⟨false, false, 0⟩).map z.take
      else if c0 = '[' then (exLoop '[' ']' z z 0 ⟨false, false, 0⟩).map z.take
      else none
    | none => none) = none
  rw [hlt, hh]
  show (if lbrace = lbrace then (exLoop lbrace rbrace z z 0 ⟨false, false, 0⟩).map z.take
    else _) = none
  rw [if_pos rfl]
  have hz : exLoop lbrace rbrace z z 0 st0 = none :=
    exLoop_none lbrace rbrace z z 0 st0 (fun k hk => neverZero_unpack hnz k hk)
  show (exLoop lbrace rbrace z z 0 st0).map z.take = none
  rw [hz]
  rfl

/-- A successful strict parse of a brace-headed trimmed text forces the
scanner back to depth zero at the end of the consumed value. -/
theorem jsonParseL_zero {sane : List Char} {v : JsVal}
    (hhead : sane.head? = some lbrace) (htr : jsTrim sane = sane)
    (h : jsonParseL sane = some v) :
    ∃ n, 0 < n ∧ n ≤ sane.length ∧
      (runM lbrace rbrace st0 (sane.take n)).depth = 0 := by
  rw [jsonParseL, htr] at h
  obtain ⟨r, hp, hra⟩ := coreParse_parseV h
  rw [skipW_eq_self (fun c hc => by
    rw [hhead] at hc
    injection hc with hc
    rw [← hc]
    rfl)] at hp
  obtain ⟨P, hPe, hPn⟩ := (parse_neutral (sane.length + 2)).1 hp
  have hPne : P ≠ [] := by
    intro hnil
    rw [hnil, List.nil_append] at hPe
    cases r with
    | nil =>
      rw [hPe] at hhead
      exact Option.noConfusion hhead
    | cons a t =>
      rw [hPe] at hhead
      injection hhead with hhead
      have := List.all_eq_true.mp hra a (List.mem_cons_self _ _)
      rw [hhead] at this
      exact absurd this (by decide)
  refine ⟨P.length, List.length_pos.mpr hPne, ?_, ?_⟩
  · rw [hPe, List.length_append]
    omega
  · rw [hPe, List.take_left]
    have := hPn 0
    rw [show st0 = MSt.mk false false 0 from rfl, this]
    rfl

theorem afterSanitize_no_extract {sane : List Char}
    (hparse : jsonParseL sane = none) (hex : extractRegion sane = none) :
    afterSanitize sane = none := by
  show (match jsonParseL sane with
    | some v => some v
    | none =>
      if sane.isEmpty then none
      else
        match extractRegion sane with
        | some sub => jsonParseL sub
        | none => none) = none
  rw [hparse]
  show (if sane.isEmpty then none
    else match extractRegion sane with
      | some sub => jsonParseL sub
      | none => none) = none
  cases he : sane.isEmpty with
  | true => rfl
  | false =>
    show (match extractRegion sane with
      | some sub => jsonParseL sub
      | none => none) = none
    rw [hex]

/-- When the sanitized text is brace-headed and the counter never returns to
zero, the whole pipeline yields the absent outcome. -/
theorem parseModelJson_neverZero (s : String)
    (hh : (sanitizeL s.toList).head? = some lbrace)
    (hnz : neverZero (sanitizeL s.toList) = true) :
    parseModelJson s = none := by
  rw [parseModelJson_as_afterSanitize]
  have htr : jsTrim (sanitizeL s.toList) = sanitizeL s.toList := sanitizeL_trimmed _
  have hpn : jsonParseL (sanitizeL s.toList) = none := by
    cases hp : jsonParseL (sanitizeL s.toList) with
    | none => rfl
    | some v =>
      exfalso
      obtain ⟨n, hn0, hnl, hdz⟩ := jsonParseL_zero hh htr hp
      refine neverZero_unpack hnz (n - 1) (by omega) ?_
      rw [show n - 1 + 1 = n from by omega]
      exact hdz
  exact afterSanitize_no_extract hpn (extractRegion_neverZero hh hnz)

set_option maxHeartbeats 2000000 in
theorem C5_concrete_unbalanced : parseModelJson "\x7b\"a\": [\x7d" = none := rfl

set_option maxHeartbeats 4000000 in
/-- C5 counterexample: the multi-line truncated object `{"k": [` `true, { "b": 1`
`} ], "m": 2` is a truncated JSON object missing its closing brace (appending
`}` makes it parse), yet on its sanitized text the nesting counter does return
to zero and an extraction substring IS produced; the final result is still
absent only because that substring fails to parse. -/
theorem C5_counterexample :
    jsonParse ("\x7b\"k\": [\ntrue, \x7b \"b\": 1\n\x7d ], \"m\": 2" ++ "\x7d")
      = some (JsVal.obj [("k", JsVal.arr [JsVal.bool true,
          JsVal.obj [("b", JsVal.num 1 0)]] []), ("m", JsVal.num 2 0)])
    ∧ jsonParse "\x7b\"k\": [\ntrue, \x7b \"b\": 1\n\x7d ], \"m\": 2" = none
    ∧ extractRegion (sanitizeL ("\x7b\"k\": [\ntrue, \x7b \"b\": 1\n\x7d ], \"m\": 2").toList)
      = some ("\x7b\"k\": [\n\x7d").toList
    ∧ parseModelJson "\x7b\"k\": [\ntrue, \x7b \"b\": 1\n\x7d ], \"m\": 2" = none :=
  ⟨rfl, rfl, rfl, rfl⟩

/-- C5: the unbalanced input `{"a": [}` yields the absent outcome, and — in
the amended universal form — whenever the sanitized text starts with `{` and
the string-aware nesting counter never returns to zero (the truncated-object
scenario), strict parsing fails, no extraction substring is produced, and the
result is absent. -/
theorem C5_unbalanced_and_truncated_absent :
    (parseModelJson "\x7b\"a\": [\x7d" = none)
    ∧ (∀ s : String, (sanitizeL s.toList).head? = some lbrace →
        neverZero (sanitizeL s.toList) = true →
        parseModelJson s = none ∧ extractRegion (sanitizeL s.toList) = none) := by
  constructor
  · exact C5_concrete_unbalanced
  · intro s hh hnz
    exact ⟨parseModelJson_neverZero s hh hnz, extractRegion_neverZero hh hnz⟩

set_option maxHeartbeats 1000000 in
theorem C5_witness :
    ((sanitizeL ("\x7b\"a\": 1").toList).head? = some lbrace
      ∧ neverZero (sanitizeL ("\x7b\"a\": 1").toList) = true)
    ∧ parseModelJson "\x7b\"a\": 1" = none
      ∧ extractRegion (sanitizeL ("\x7b\"a\": 1").toList) = none :=
  ⟨⟨by rfl, by rfl⟩,
   C5_unbalanced_and_truncated_absent.2 "\x7b\"a\": 1" (by rfl) (by rfl)⟩

/-!
## C2 — the sanitizer is faithful on single-line valid JSON
-/

theorem matchR1_none_head {c : Char} {r : List Char}
    (hws : isJsWs c = false) (ha : isAlphaJs c = false) (hu : ¬c = '_') :
    matchR1 (c :: r) = none := by
  have h0 : wsRun (c :: r) = 0 := by
    simp [wsRun, List.takeWhile_cons, hws]
  simp [matchR1, h0, ha, hu]

theorem matchR2_none_head {c : Char} {r : List Char}
    (hws : isJsWs c = false) (ha : isAlphaJs c = false) :
    matchR2 (c :: r) = none := by
  have h0 : wsRun (c :: r) = 0 := by
    simp [wsRun, List.takeWhile_cons, hws]
  simp [matchR2, h0, ha]

theorem r1consume_none {prev : Option Char} {l : List Char}
    (h : atLineStart prev = true → matchR1 l = none) : r1consume prev l = none := by
  cases hls : atLineStart prev with
  | false => simp [r1consume, hls]
  | true => simp [r1consume, hls, h hls]

theorem r2consume_none {prev : Option Char} {l : List Char}
    (h : atLineStart prev = true → matchR2 l = none) : r2consume prev l = none := by
  cases hls : atLineStart prev with
  | false => simp [r2consume, hls]
  | true => simp [r2consume, hls, h hls]

theorem r1go_id : ∀ (fuel : Nat) (prev : Option Char) (l : List Char),
    (atLineStart prev = true → matchR1 l = none) →
    (∀ ch ∈ l, isLineTerm ch = false) → r1go fuel prev l = l := by
  intro fuel
  induction fuel with
  | zero => intro prev l _ _; rfl
  | succ fuel ih =>
    intro prev l hm hl
    cases l with
    | nil => rfl
    | cons c0 rest =>
      rw [r1go_cons, r1consume_none hm]
      show c0 :: r1go fuel (some c0) rest = c0 :: rest
      congr 1
      apply ih
      · intro hls
        have hc0 := hl c0 (List.mem_cons_self _ _)
        have hls2 : isLineTerm c0 = true := hls
        rw [hc0] at hls2
        exact Bool.noConfusion hls2
      · intro ch hch
        exact hl ch (List.mem_cons_of_mem _ hch)

theorem r2go_id : ∀ (fuel : Nat) (prev : Option Char) (l : List Char),
    (atLineStart prev = true → matchR2 l = none) →
    (∀ ch ∈ l, isLineTerm ch = false) → r2go fuel prev l = l := by
  intro fuel
  induction fuel with
  | zero => intro prev l _ _; rfl
  | succ fuel ih =>
    intro prev l hm hl
    cases l with
    | nil => rfl
    | cons c0 rest =>
      rw [r2go_cons, r2consume_none hm]
      show c0 :: r2go fuel (some c0) rest = c0 :: rest
      congr 1
      apply ih
      · intro hls
        have hc0 := hl c0 (List.mem_cons_self _ _)
        have hls2 : isLineTerm c0 = true := hls
        rw [hc0] at hls2
        exact Bool.noConfusion hls2
      · intro ch hch
        exact hl ch (List.mem_cons_of_mem _ hch)

theorem splitNl_single {l : List Char} (h : ∀ ch ∈ l, isLineTerm ch = false) :
    splitNl l = [l] := by
  induction l with
  | nil => rfl
  | cons c rest ih =>
    have hc : ¬c = '\n' := by
      intro hh
      have := h c (List.mem_cons_self _ _)
      rw [hh] at this
      exact absurd this (by decide)
    rw [splitNl, ih (fun ch hch => h ch (List.mem_cons_of_mem _ hch))]
    simp [hc]

theorem collapseNl_id : ∀ (fuel : Nat) (l : List Char),
    (∀ ch ∈ l, isLineTerm ch = false) → collapseNl fuel l = l := by
  intro fuel
  induction fuel with
  | zero => intro l _; rfl
  | succ fuel ih =>
    intro l h
    cases l with
    | nil => rfl
    | cons c rest =>
      have hc : ¬c = '\n' := by
        intro hh
        have := h c (List.mem_cons_self _ _)
        rw [hh] at this
        exact absurd this (by decide)
      rw [collapseNl_cons, if_neg hc]
      congr 1
      exact ih rest (fun ch hch => h ch (List.mem_cons_of_mem _ hch))

theorem getLast?_append_ne {l1 l2 : List Char} (h : l2 ≠ []) :
    (l1 ++ l2).getLast? = l2.getLast? := by
  obtain ⟨a, t, rfl⟩ := List.exists_cons_of_ne_nil h
  exact getLast?_append_cons _ _ _

theorem takeWhile_all_self {p : Char → Bool} {l : List Char}
    (h : l.all p = true) : l.takeWhile p = l := by
  induction l with
  | nil => rfl
  | cons a t ih =>
    rw [List.all_cons, Bool.and_eq_true] at h
    rw [List.takeWhile_cons, h.1]
    simp [ih h.2]

theorem trimmed_suffix_ws_nil {l P r : List Char}
    (hl : jsTrim l = l) (he : l = P ++ r) (hr : r.all isJsonWs = true) : r = [] := by
  cases r with
  | nil => rfl
  | cons a t =>
    exfalso
    have hx : (a :: t).getLast? = some ((a :: t).getLast (List.cons_ne_nil a t)) :=
      List.getLast?_eq_getLast _ _
    have hmem : (a :: t).getLast (List.cons_ne_nil a t) ∈ a :: t := List.getLast_mem _
    have hws : isJsonWs ((a :: t).getLast (List.cons_ne_nil a t)) = true :=
      List.all_eq_true.mp hr _ hmem
    have hlast : l.getLast? = some ((a :: t).getLast (List.cons_ne_nil a t)) := by
      rw [he, getLast?_append_cons, hx]
    have hn : isJsWs ((a :: t).getLast (List.cons_ne_nil a t)) = false :=
      jsRTrim_getLast_not_ws (by
        rw [show jsRTrim (jsLTrim l) = jsTrim l from rfl, hl]
        exact hlast)
    rw [isJsWs_of_isJsonWs hws] at hn
    exact Bool.noConfusion hn

theorem frac_shape {x : List Char} {fd l3 : List Char}
    (h : (match x with
      | '.' :: r2 =>
        let fd := r2.takeWhile isDigitJs
        if fd.isEmpty then none else some (fd, r2.dropWhile isDigitJs)
      | _ => some ([], x)) = some (fd, l3)) :
    ∃ fp, x = fp ++ l3
      ∧ (fp = [] ∨ ∃ fd2, fd2 ≠ [] ∧ fd2.all isDigitJs = true ∧ fp = '.' :: fd2) := by
  split at h
  · rename_i r2
    simp only [] at h
    split at h
    · exact Option.noConfusion h
    · rename_i hne
      rw [Option.some.injEq, Prod.mk.injEq] at h
      obtain ⟨hfd, hl3⟩ := h
      subst hl3
      refine ⟨'.' :: r2.takeWhile isDigitJs, ?_, Or.inr
        ⟨r2.takeWhile isDigitJs, ?_, ?_, rfl⟩⟩
      · rw [List.cons_append, List.takeWhile_append_dropWhile]
      · intro hh
        rw [hh] at hne
        exact hne rfl
      · exact List.all_eq_true.mpr (fun ch hch => List.mem_takeWhile_imp hch)
  · rw [Option.some.injEq, Prod.mk.injEq] at h
    obtain ⟨hfd, hl3⟩ := h
    subst hl3
    exact ⟨[], rfl, Or.inl rfl⟩

theorem exp_shape {l3 : List Char} {ev : Int} {l4 : List Char}
    (h : (match l3 with
      | e :: r3 =>
        if e = 'e' || e = 'E' then
          let sp : Int × List Char := match r3 with
            | '+' :: rr => (1, rr)
            | '-' :: rr => (-1, rr)
            | _ => (1, r3)
          let ed := sp.2.takeWhile isDigitJs
          if ed.isEmpty then none
          else some (sp.1 * (digitsToNat ed : Int), sp.2.dropWhile isDigitJs)
        else some (0, l3)
      | [] => some (0, [])) = some (ev, l4)) :
    ∃ ep, l3 = ep ++ l4
      ∧ (ep = [] ∨ ∃ e0 sg ed, (e0 = 'e' ∨ e0 = 'E')
          ∧ (sg = [] ∨ sg = ['+'] ∨ sg = ['-'])
          ∧ ed ≠ [] ∧ ed.all isDigitJs = true ∧ ep = e0 :: (sg ++ ed)) := by
  split at h
  · rename_i e0 r3
    split at h
    · rename_i hcond
      have he0 : e0 = 'e' ∨ e0 = 'E' := by
        rcases Bool.or_eq_true_iff.mp hcond with h1 | h1
        · exact Or.inl (by rwa [decide_eq_true_eq] at h1)
        · exact Or.inr (by rwa [decide_eq_true_eq] at h1)
      split at h
      · rename_i rr
        simp only [] at h
        split at h
        · exact Option.noConfusion h
        · rename_i hne
          rw [Option.some.injEq, Prod.mk.injEq] at h
          obtain ⟨hv, hl4⟩ := h
          subst hl4
          refine ⟨e0 :: '+' :: rr.takeWhile isDigitJs, ?_, Or.inr
            ⟨e0, ['+'], rr.takeWhile isDigitJs, he0, Or.inr (Or.inl rfl), ?_, ?_, by simp⟩⟩
          · rw [List.cons_append, List.cons_append, List.takeWhile_append_dropWhile]
          · intro hh
            rw [hh] at hne
            exact hne rfl
          · exact List.all_eq_true.mpr (fun ch hch => List.mem_takeWhile_imp hch)
      · rename_i rr
        simp only [] at h
        split at h
        · exact Option.noConfusion h
        · rename_i hne
          rw [Option.some.injEq, Prod.mk.injEq] at h
          obtain ⟨hv, hl4⟩ := h
          subst hl4
          refine ⟨e0 :: '-' :: rr.takeWhile isDigitJs, ?_, Or.inr
            ⟨e0, ['-'], rr.takeWhile isDigitJs, he0, Or.inr (Or.inr rfl), ?_, ?_, by simp⟩⟩
          · rw [List.cons_append, List.cons_append, List.takeWhile_append_dropWhile]
          · intro hh
            rw [hh] at hne
            exact hne rfl
          · exact List.all_eq_true.mpr (fun ch hch => List.mem_takeWhile_imp hch)
      · simp only [] at h
        split at h
        · exact Option.noConfusion h
        · rename_i hne
          rw [Option.some.injEq, Prod.mk.injEq] at h
          obtain ⟨hv, hl4⟩ := h
          subst hl4
          refine ⟨e0 :: r3.takeWhile isDigitJs, ?_, Or.inr
            ⟨e0, [], r3.takeWhile isDigitJs, he0, Or.inl rfl, ?_, ?_, by simp⟩⟩
          · rw [List.cons_append, List.takeWhile_append_dropWhile]
          · intro hh
            rw [hh] at hne
            exact hne rfl
          · exact List.all_eq_true.mpr (fun ch hch => List.mem_takeWhile_imp hch)
    · rw [Option.some.injEq, Prod.mk.injEq] at h
      obtain ⟨hv, hl4⟩ := h
      subst hl4
      exact ⟨[], rfl, Or.inl rfl⟩
  · rw [Option.some.injEq, Prod.mk.injEq] at h
    obtain ⟨hv, hl4⟩ := h
    subst hl4
    exact ⟨[], rfl, Or.inl rfl⟩

/-- The full grammatical shape of a successful number parse: optional sign,
non-empty integer digits, optional fraction, optional exponent. -/
theorem parseNum_shape {l : List Char} {q : Int × Int} {rest : List Char}
    (h : parseNum l = some (q, rest)) :
    ∃ sgn ip fp ep, l = sgn ++ (ip ++ (fp ++ (ep ++ rest)))
      ∧ (sgn = [] ∨ sgn = ['-'])
      ∧ ip ≠ [] ∧ ip.all isDigitJs = true
      ∧ (fp = [] ∨ ∃ fd2, fd2 ≠ [] ∧ fd2.all isDigitJs = true ∧ fp = '.' :: fd2)
      ∧ (ep = [] ∨ ∃ e0 sg ed, (e0 = 'e' ∨ e0 = 'E')
          ∧ (sg = [] ∨ sg = ['+'] ∨ sg = ['-'])
          ∧ ed ≠ [] ∧ ed.all isDigitJs = true ∧ ep = e0 :: (sg ++ ed)) := by
  rw [parseNum.eq_def] at h
  split at h
  · rename_i rr
    simp only [] at h
    split at h
    · rename_i c r
      split at h
      · exact Option.noConfusion h
      · rename_i hdig
        have hd : isDigitJs c = true := by simpa using hdig
        by_cases hz : c = '0'
        · subst hz
          simp only [eq_self_iff_true, if_true] at h
          split at h
          · exact Option.noConfusion h
          · rename_i fd l3 hfr
            split at h
            · exact Option.noConfusion h
            · rename_i ev l4 hex
              rw [Option.some.injEq, Prod.mk.injEq] at h
              obtain ⟨hq, hrest⟩ := h
              subst hrest
              obtain ⟨fp, hfp, hfps⟩ := frac_shape hfr
              obtain ⟨ep, hep, heps⟩ := exp_shape hex
              refine ⟨['-'], ['0'], fp, ep, ?_, Or.inr rfl, by decide, by decide,
                hfps, heps⟩
              simp only [List.cons_append, List.nil_append, List.singleton_append]
              rw [hfp, hep]
        · simp only [if_neg hz] at h
          split at h
          · exact Option.noConfusion h
          · rename_i fd l3 hfr
            split at h
            · exact Option.noConfusion h
            · rename_i ev l4 hex
              rw [Option.some.injEq, Prod.mk.injEq] at h
              obtain ⟨hq, hrest⟩ := h
              subst hrest
              obtain ⟨fp, hfp, hfps⟩ := frac_shape hfr
              obtain ⟨ep, hep, heps⟩ := exp_shape hex
              refine ⟨['-'], c :: r.takeWhile isDigitJs, fp, ep, ?_, Or.inr rfl,
                List.cons_ne_nil _ _, ?_, hfps, heps⟩
              · simp only [List.cons_append, List.nil_append, List.singleton_append]
                conv_lhs => rw [← List.takeWhile_append_dropWhile isDigitJs r, hfp, hep]
              · rw [List.all_cons, hd]
                simp only [Bool.true_and]
                exact List.all_eq_true.mpr (fun ch hch => List.mem_takeWhile_imp hch)
    · exact Option.noConfusion h
  · rename_i hne
    simp only [] at h
    split at h
    · rename_i c r
      split at h
      · exact Option.noConfusion h
      · rename_i hdig
        have hd : isDigitJs c = true := by simpa using hdig
        by_cases hz : c = '0'
        · subst hz
          simp only [eq_self_iff_true, if_true] at h
          split at h
          · exact Option.noConfusion h
          · rename_i fd l3 hfr
            split at h
            · exact Option.noConfusion h
            · rename_i ev l4 hex
              rw [Option.some.injEq, Prod.mk.injEq] at h
              obtain ⟨hq, hrest⟩ := h
              subst hrest
              obtain ⟨fp, hfp, hfps⟩ := frac_shape hfr
              obtain ⟨ep, hep, heps⟩ := exp_shape hex
              refine ⟨[], ['0'], fp, ep, ?_, Or.inl rfl, by decide, by decide,
                hfps, heps⟩
              simp only [List.cons_append, List.nil_append, List.singleton_append]
              rw [hfp, hep]
        · simp only [if_neg hz] at h
          split at h
          · exact Option.noConfusion h
          · rename_i fd l3 hfr
            split at h
            · exact Option.noConfusion h
            · rename_i ev l4 hex
              rw [Option.some.injEq, Prod.mk.injEq] at h
              obtain ⟨hq, hrest⟩ := h
              subst hrest
              obtain ⟨fp, hfp, hfps⟩ := frac_shape hfr
              obtain ⟨ep, hep, heps⟩ := exp_shape hex
              refine ⟨[], c :: r.takeWhile isDigitJs, fp, ep, ?_, Or.inl rfl,
                List.cons_ne_nil _ _, ?_, hfps, heps⟩
              · simp only [List.cons_append, List.nil_append, List.singleton_append]
                conv_lhs => rw [← List.takeWhile_append_dropWhile isDigitJs r, hfp, hep]
              · rw [List.all_cons, hd]
                simp only [Bool.true_and]
                exact List.all_eq_true.mpr (fun ch hch => List.mem_takeWhile_imp hch)
    · exact Option.noConfusion h

theorem bare_ip_take {ip fp ep : List Char} (hipa : ip.all isDigitJs = true)
    (hfp : fp = [] ∨ ∃ fd2, fd2 ≠ [] ∧ fd2.all isDigitJs = true ∧ fp = '.' :: fd2)
    (hep : ep = [] ∨ ∃ e0 sg ed, (e0 = 'e' ∨ e0 = 'E')
        ∧ (sg = [] ∨ sg = ['+'] ∨ sg = ['-'])
        ∧ ed ≠ [] ∧ ed.all isDigitJs = true ∧ ep = e0 :: (sg ++ ed)) :
    (ip ++ (fp ++ ep)).takeWhile isDigitJs = ip := by
  apply takeWhile_all_append (List.all_eq_true.mp hipa)
  intro c hc
  rcases hfp with rfl | ⟨fd2, hne, hall, rfl⟩
  · rcases hep with rfl | ⟨e0, sg, ed, he0, _, _, _, rfl⟩
    · simp at hc
    · simp only [List.nil_append, List.head?_cons, Option.some.injEq] at hc
      subst hc
      rcases he0 with rfl | rfl <;> rfl
  · simp only [List.cons_append, List.head?_cons, Option.some.injEq] at hc
    subst hc
    rfl

theorem bare_ne_word {t : List Char} {c : Char} {r0 : List Char} (ht : t = c :: r0)
    (hc : c = Char.ofNat 45 ∨ isDigitJs c = true) :
    (decide (t = String.toList "true") || decide (t = String.toList "false")) = false := by
  have h1 : ¬t = String.toList "true" := by
    intro hh
    rw [ht] at hh
    have hhd := congrArg List.head? hh
    rw [show (String.toList "true").head? = some 't' from rfl, List.head?_cons] at hhd
    injection hhd with hhd
    rw [hhd] at hc
    rcases hc with hc | hc <;> exact absurd hc (by decide)
  have h2 : ¬t = String.toList "false" := by
    intro hh
    rw [ht] at hh
    have hhd := congrArg List.head? hh
    rw [show (String.toList "false").head? = some 'f' from rfl, List.head?_cons] at hhd
    injection hhd with hhd
    rw [hhd] at hc
    rcases hc with hc | hc <;> exact absurd hc (by decide)
  rw [decide_eq_false h1, decide_eq_false h2]
  rfl

theorem bare_tail_true {e0 : Char} {sg ed : List Char}
    (he0 : e0 = 'e' ∨ e0 = 'E') (hsg : sg = [] ∨ sg = ['+'] ∨ sg = ['-'])
    (hedne : ed ≠ []) (heda : ed.all isDigitJs = true) :
    (if e0 = 'e' || e0 = 'E' then
      let r2 := match sg ++ ed with | '+' :: rr => rr | '-' :: rr => rr | _ => sg ++ ed
      let d3 := r2.takeWhile isDigitJs
      !d3.isEmpty && (r2.drop d3.length).isEmpty
    else false) = true := by
  rw [if_pos (by rcases he0 with rfl | rfl <;> simp)]
  have hempty : ed.isEmpty = false := by
    cases ed with
    | nil => exact absurd rfl hedne
    | cons a t => rfl
  rcases hsg with rfl | rfl | rfl
  · simp only [List.nil_append]
    split
    · exfalso
      rw [List.all_cons, Bool.and_eq_true] at heda
      exact absurd heda.1 (by decide)
    · exfalso
      rw [List.all_cons, Bool.and_eq_true] at heda
      exact absurd heda.1 (by decide)
    · rw [takeWhile_all_self heda, hempty, List.drop_length]
      rfl
  · show (!(ed.takeWhile isDigitJs).isEmpty
      && (ed.drop (ed.takeWhile isDigitJs).length).isEmpty) = true
    rw [takeWhile_all_self heda, hempty, List.drop_length]
    rfl
  · show (!(ed.takeWhile isDigitJs).isEmpty
      && (ed.drop (ed.takeWhile isDigitJs).length).isEmpty) = true
    rw [takeWhile_all_self heda, hempty, List.drop_length]
    rfl

theorem bare_post_sign {ip fp ep : List Char}
    (hipne : ip ≠ []) (hipa : ip.all isDigitJs = true)
    (hfp : fp = [] ∨ ∃ fd2, fd2 ≠ [] ∧ fd2.all isDigitJs = true ∧ fp = '.' :: fd2)
    (hep : ep = [] ∨ ∃ e0 sg ed, (e0 = 'e' ∨ e0 = 'E')
        ∧ (sg = [] ∨ sg = ['+'] ∨ sg = ['-'])
        ∧ ed ≠ [] ∧ ed.all isDigitJs = true ∧ ep = e0 :: (sg ++ ed)) :
    (let d1 := (ip ++ (fp ++ ep)).takeWhile isDigitJs
     if d1.isEmpty then false
     else
       let l2 := (ip ++ (fp ++ ep)).drop d1.length
       let l3 := match l2 with
         | '.' :: r =>
           let d2 := r.takeWhile isDigitJs
           if d2.isEmpty then none else some (r.drop d2.length)
         | _ => some l2
       match l3 with
       | none => false
       | some l4 =>
         match l4 with
         | [] => true
         | e :: r =>
           if e = 'e' || e = 'E' then
             let r2 := match r with | '+' :: rr => rr | '-' :: rr => rr | _ => r
             let d3 := r2.takeWhile isDigitJs
             !d3.isEmpty && (r2.drop d3.length).isEmpty
           else false) = true := by
  have htk := bare_ip_take hipa hfp hep
  simp only [htk]
  rw [if_neg (by
    cases ip with
    | nil => exact absurd rfl hipne
    | cons a t => simp), List.drop_left]
  rcases hfp with rfl | ⟨fd2, hfdne, hfda, rfl⟩
  · simp only [List.nil_append]
    rcases hep with rfl | ⟨e0, sg, ed, he0, hsg, hedne, heda, rfl⟩
    · rfl
    · split
      · rename_i heq
        exfalso
        split at heq
        · rename_i r2x heq2
          injection heq2 with ha hb
          rcases he0 with rfl | rfl <;> exact absurd ha (by decide)
        · exact Option.noConfusion heq
      · rename_i l4 heq
        split at heq
        · rename_i r2x heq2
          injection heq2 with ha hb
          rcases he0 with rfl | rfl <;> exact absurd ha (by decide)
        · injection heq with heq
          subst heq
          exact bare_tail_true he0 hsg hedne heda
  · simp only [List.cons_append]
    have htk2 : (fd2 ++ ep).takeWhile isDigitJs = fd2 := by
      apply takeWhile_all_append (List.all_eq_true.mp hfda)
      intro cx hcx
      rcases hep with rfl | ⟨e0, sg, ed, he0, _, _, _, rfl⟩
      · simp at hcx
      · simp only [List.head?_cons, Option.some.injEq] at hcx
        subst hcx
        rcases he0 with rfl | rfl <;> rfl
    simp only [htk2]
    rw [if_neg (by
      cases fd2 with
      | nil => exact absurd rfl hfdne
      | cons a t => simp), List.drop_left]
    rcases hep with rfl | ⟨e0, sg, ed, he0, hsg, hedne, heda, rfl⟩
    · rfl
    · exact bare_tail_true he0 hsg hedne heda

/-- A grammatically complete number token passes the bare-literal test of the
line filter. -/
theorem isBareLiteral_build {sgn ip fp ep : List Char}
    (hs : sgn = [] ∨ sgn = ['-'])
    (hipne : ip ≠ []) (hipa : ip.all isDigitJs = true)
    (hfp : fp = [] ∨ ∃ fd2, fd2 ≠ [] ∧ fd2.all isDigitJs = true ∧ fp = '.' :: fd2)
    (hep : ep = [] ∨ ∃ e0 sg ed, (e0 = 'e' ∨ e0 = 'E')
        ∧ (sg = [] ∨ sg = ['+'] ∨ sg = ['-'])
        ∧ ed ≠ [] ∧ ed.all isDigitJs = true ∧ ep = e0 :: (sg ++ ed)) :
    isBareLiteral (sgn ++ (ip ++ (fp ++ ep))) = true := by
  obtain ⟨d0, ip', rfl⟩ := List.exists_cons_of_ne_nil hipne
  have hd0 : isDigitJs d0 = true := by
    have h2 := hipa
    rw [List.all_cons, Bool.and_eq_true] at h2
    exact h2.1
  rcases hs with rfl | rfl
  · rw [List.nil_append, isBareLiteral]
    rw [if_neg (by
      rw [bare_ne_word
        (show (d0 :: ip') ++ (fp ++ ep) = d0 :: (ip' ++ (fp ++ ep)) from by
          rw [List.cons_append]) (Or.inr hd0)]
      exact Bool.false_ne_true)]
    simp only [List.cons_append]
    · exact bare_post_sign (List.cons_ne_nil _ _) hipa hfp hep
    · intro r heq
      injection heq with h1 h2
      rw [h1] at hd0
      exact absurd hd0 (by decide)
  · rw [isBareLiteral.eq_def]
    rw [if_neg (by
      rw [bare_ne_word
        (show (['-'] ++ ((d0 :: ip') ++ (fp ++ ep)) : List Char)
            = '-' :: ((d0 :: ip') ++ (fp ++ ep)) from by simp) (Or.inl (by decide))]
      exact Bool.false_ne_true)]
    exact @bare_post_sign (d0 :: ip') fp ep (List.cons_ne_nil _ _) hipa hfp hep

theorem digit_not_jsws {c : Char} (h : isDigitJs c = true) : isJsWs c = false := by
  have hn : 48 ≤ c.toNat ∧ c.toNat ≤ 57 := by
    simpa [isDigitJs, Bool.and_eq_true, decide_eq_true_eq] using h
  have e1 : ¬c = ' ' := fun he => by subst he; exact absurd hn (by decide)
  have e2 : ¬c = '\t' := fun he => by subst he; exact absurd hn (by decide)
  have e3 : ¬c = '\n' := fun he => by subst he; exact absurd hn (by decide)
  have e4 : ¬c = '\r' := fun he => by subst he; exact absurd hn (by decide)
  have e5 : ¬c = Char.ofNat 11 := fun he => by subst he; exact absurd hn (by decide)
  have e6 : ¬c = Char.ofNat 12 := fun he => by subst he; exact absurd hn (by decide)
  have e7 : ¬c = Char.ofNat 0xa0 := fun he => by subst he; exact absurd hn (by decide)
  have e8 : ¬c = Char.ofNat 0x1680 := fun he => by subst he; exact absurd hn (by decide)
  have e9 : ¬c = Char.ofNat 0x2028 := fun he => by subst he; exact absurd hn (by decide)
  have e10 : ¬c = Char.ofNat 0x2029 := fun he => by subst he; exact absurd hn (by decide)
  have e11 : ¬c = Char.ofNat 0x202f := fun he => by subst he; exact absurd hn (by decide)
  have e12 : ¬c = Char.ofNat 0x205f := fun he => by subst he; exact absurd hn (by decide)
  have e13 : ¬c = Char.ofNat 0x3000 := fun he => by subst he; exact absurd hn (by decide)
  have e14 : ¬c = Char.ofNat 0xfeff := fun he => by subst he; exact absurd hn (by decide)
  have er : ¬(0x2000 ≤ c.toNat) := by omega
  simp [isJsWs, e1, e2, e3, e4, e5, e6, e7, e8, e9, e10, e11, e12, e13, e14, er]

theorem digit_not_alpha {c : Char} (h : isDigitJs c = true) : isAlphaJs c = false := by
  have hn : 48 ≤ c.toNat ∧ c.toNat ≤ 57 := by
    simpa [isDigitJs, Bool.and_eq_true, decide_eq_true_eq] using h
  cases ha : isAlphaJs c with
  | false => rfl
  | true =>
    exfalso
    simp only [isAlphaJs, Bool.or_eq_true, Bool.and_eq_true, decide_eq_true_eq] at ha
    omega

/-- The line filter keeps any line whose trimmed form passes the bare-literal
test: every other branch of the classifier also answers `true`. -/
theorem keepLine_of_bare {line : List Char}
    (hb : isBareLiteral (jsTrim line) = true) : keepLine line = true := by
  rw [keepLine.eq_def]
  dsimp only
  split
  · rfl
  · split
    · rfl
    · split
      · rfl
      · split
        · rfl
        · split
          · exact hb
          · rfl

/-- The line filter keeps any line whose trimmed form starts with one of the
six structural characters of the second classifier branch. -/
theorem keepLine_of_head {line : List Char} {c : Char} {r0 : List Char}
    (hline : jsTrim line = c :: r0)
    (hc : (c = lbrace || c = rbrace || c = '[' || c = ']' || c = ',' || c = '"') = true) :
    keepLine line = true := by
  rw [keepLine.eq_def]
  dsimp only
  split
  · rfl
  · split
    · rfl
    · rename_i hB
      exact absurd (show _ = true by rw [hline]; exact hc) hB

theorem filterLines_single_keep {l : List Char}
    (hnl : ∀ ch ∈ l, isLineTerm ch = false) (hk : keepLine l = true) :
    filterLines l = l := by
  rw [filterLines, splitNl_single hnl]
  rw [show List.filter keepLine [l] = [l] from by simp [hk]]
  rfl

theorem sanitizeL_congr_trim {l1 l2 : List Char} (h : jsTrim l1 = jsTrim l2) :
    sanitizeL l1 = sanitizeL l2 := by
  rw [sanitizeL, sanitizeL, h]

/-- On an already-trimmed single line that no regex matches, whose head is not
a backtick, and that the line filter keeps, the whole sanitization stage is
the identity. -/
theorem sanitizeL_single_id {t2 : List Char}
    (htrim : jsTrim t2 = t2)
    (hnl : ∀ ch ∈ t2, isLineTerm ch = false)
    (hfence : fenceUnwrap t2 = t2)
    (hm1 : matchR1 t2 = none)
    (hm2 : matchR2 t2 = none)
    (hk : keepLine t2 = true) :
    sanitizeL t2 = t2 := by
  have hr1 : regex1 t2 = t2 := r1go_id _ _ _ (fun _ => hm1) hnl
  have hr2 : regex2 t2 = t2 := r2go_id _ _ _ (fun _ => hm2) hnl
  have hf : filterLines t2 = t2 := filterLines_single_keep hnl hk
  rw [sanitizeL]
  simp only [htrim, hfence, hr1, hr2, hf]
  rw [collapseNl_id _ _ hnl, htrim]

/-- A successful `parseV` on a minus- or digit-headed text is exactly a
successful number parse. -/
theorem parseV_num_head {f : Nat} {c : Char} {r0 : List Char} {v : JsVal}
    {r : List Char}
    (hc : c = Char.ofNat 45 ∨ isDigitJs c = true)
    (hp : parseV f (c :: r0) = some (v, r)) :
    ∃ q1 q2, parseNum (c :: r0) = some ((q1, q2), r) ∧ v = JsVal.num q1 q2 := by
  have h1 : ¬c = lbrace := by
    rcases hc with rfl | hd
    · decide
    · intro he; rw [he] at hd; exact absurd hd (by decide)
  have h2 : ¬c = '[' := by
    rcases hc with rfl | hd
    · decide
    · intro he; rw [he] at hd; exact absurd hd (by decide)
  have h3 : ¬c = '"' := by
    rcases hc with rfl | hd
    · decide
    · intro he; rw [he] at hd; exact absurd hd (by decide)
  have h4 : ¬c = 't' := by
    rcases hc with rfl | hd
    · decide
    · intro he; rw [he] at hd; exact absurd hd (by decide)
  have h5 : ¬c = 'f' := by
    rcases hc with rfl | hd
    · decide
    · intro he; rw [he] at hd; exact absurd hd (by decide)
  have h6 : ¬c = 'n' := by
    rcases hc with rfl | hd
    · decide
    · intro he; rw [he] at hd; exact absurd hd (by decide)
  have h7 : (c = Char.ofNat 45 || isDigitJs c) = true := by
    rcases hc with rfl | hd
    · simp
    · simp [hd]
  cases f with
  | zero => exact absurd hp (by rw [parseV]; exact fun hh => Option.noConfusion hh)
  | succ f =>
    rw [parseV] at hp
    rw [if_neg h1, if_neg h2, if_neg h3, if_neg h4, if_neg h5, if_neg h6,
      if_pos h7] at hp
    cases hq : parseNum (c :: r0) with
    | none => rw [hq] at hp; exact Option.noConfusion hp
    | some pr =>
      obtain ⟨⟨q1, q2⟩, rest⟩ := pr
      rw [hq] at hp
      rw [Option.some.injEq, Prod.mk.injEq] at hp
      obtain ⟨hv, hr⟩ := hp
      subst hr
      exact ⟨q1, q2, rfl, hv.symm⟩

/-- A number parse that consumes the whole text yields a bare literal. -/
theorem isBareLiteral_of_parseNum {l : List Char} {q : Int × Int}
    (h : parseNum l = some (q, [])) : isBareLiteral l = true := by
  obtain ⟨sgn, ip, fp, ep, hl, hs, hipne, hipa, hfp, hep⟩ := parseNum_shape h
  rw [List.append_nil] at hl
  rw [hl]
  exact isBareLiteral_build hs hipne hipa hfp hep

theorem parseNum_rest_nil {l : List Char} {q : Int × Int} {rest : List Char}
    (h : parseNum l = some (q, rest)) (htr : jsTrim l = l)
    (hra : rest.all isJsonWs = true) : rest = [] := by
  obtain ⟨sgn, ip, fp, ep, hl, -, -, -, -, -⟩ := parseNum_shape h
  have hassoc : sgn ++ (ip ++ (fp ++ (ep ++ rest)))
      = (sgn ++ (ip ++ (fp ++ ep))) ++ rest := by
    simp [List.append_assoc]
  exact trimmed_suffix_ws_nil htr (hl.trans hassoc) hra

/-- Whenever the trimmed input is a single line that neither regex touches and
the line filter keeps, the sanitizer leaves exactly the trimmed input, so the
strict parse result passes through. -/
theorem sanitize_single_faithful {s : String} {v : JsVal}
    (hall : s.toList.all (fun ch => !isLineTerm ch) = true)
    (hv : jsonParse s = some v)
    (hm1 : matchR1 (jsTrim s.toList) = none)
    (hm2 : matchR2 (jsTrim s.toList) = none)
    (hk : keepLine (jsTrim s.toList) = true) :
    jsValueOf (parseModelJson s) = v := by
  have hvl : jsonParseL s.toList = some v := hv
  obtain ⟨c, r0, htrim2, hdisp⟩ := jsonParseL_shape hvl
  have hnl : ∀ ch ∈ jsTrim s.toList, isLineTerm ch = false := fun ch hch => by
    have h2 := List.all_eq_true.mp hall ch (mem_jsTrim hch)
    simpa using h2
  have htrim : jsTrim (jsTrim s.toList) = jsTrim s.toList := jsTrim_idem _
  have hfence : fenceUnwrap (jsTrim s.toList) = jsTrim s.toList :=
    fenceUnwrap_eq_self_of_head (by rw [htrim2]; rfl) (dispatch_ne_btick hdisp)
  have hid : sanitizeL (jsTrim s.toList) = jsTrim s.toList :=
    sanitizeL_single_id htrim hnl hfence hm1 hm2 hk
  have hsan : sanitizeL s.toList = jsTrim s.toList :=
    (sanitizeL_congr_trim (jsTrim_idem s.toList).symm).trans hid
  have hjp2 : jsonParseL (jsTrim s.toList) = some v := by
    rw [jsonParseL, htrim]
    exact hvl
  have haf : afterSanitize (jsTrim s.toList) = some v := by
    rw [afterSanitize, hjp2]
  rw [parseModelJson_as_afterSanitize, hsan, haf]
  rfl

set_option maxHeartbeats 1000000 in
/-- C2: the spec's universal "for all well-formed JSON strings with no
markdown fencing, parseModelJson returns the JSON.parse value" holds in the
amended single-line form: on any input without line terminators whose strict
parse succeeds, the pipeline's observable result is exactly the parsed value.
(The unamended universal is refuted by `C2_counterexample`: the line filter
can delete a bare `null` element line from a multi-line valid document.) -/
theorem C2_single_line_faithful (s : String) (v : JsVal)
    (hall : s.toList.all (fun ch => !isLineTerm ch) = true)
    (hv : jsonParse s = some v) :
    jsValueOf (parseModelJson s) = v := by
  have hvl : jsonParseL s.toList = some v := hv
  obtain ⟨c, r0, htrim2, hdisp⟩ := jsonParseL_shape hvl
  have htrim : jsTrim (jsTrim s.toList) = jsTrim s.toList := jsTrim_idem _
  have htrim' : jsTrim (c :: r0) = c :: r0 := by rw [← htrim2]; exact htrim
  have hvc : coreParse (jsTrim s.toList) = some v := hvl
  obtain ⟨r, hp, hra⟩ := coreParse_parseV hvc
  rw [skipW_eq_self (fun c0 hc0 => jsTrim_head_not_ws hc0)] at hp
  rw [htrim2] at hp
  rcases hdisp with rfl | rfl | rfl | rfl | rfl | rfl | rfl | hdig
  · exact sanitize_single_faithful hall hv
      (by rw [htrim2]; exact matchR1_none_head (by decide) (by decide) (by decide))
      (by rw [htrim2]; exact matchR2_none_head (by decide) (by decide))
      (keepLine_of_head (htrim.trans htrim2) (by decide))
  · exact sanitize_single_faithful hall hv
      (by rw [htrim2]; exact matchR1_none_head (by decide) (by decide) (by decide))
      (by rw [htrim2]; exact matchR2_none_head (by decide) (by decide))
      (keepLine_of_head (htrim.trans htrim2) (by decide))
  · exact sanitize_single_faithful hall hv
      (by rw [htrim2]; exact matchR1_none_head (by decide) (by decide) (by decide))
      (by rw [htrim2]; exact matchR2_none_head (by decide) (by decide))
      (keepLine_of_head (htrim.trans htrim2) (by decide))
  · have hu : parseV ((('t' : Char) :: r0).length + 2) ('t' :: r0)
        = (if ('t' :: r0).take 4 = String.toList "true"
            then some (JsVal.bool true, ('t' :: r0).drop 4) else none) := rfl
    rw [hu] at hp
    split at hp
    · rename_i htk
      rw [Option.some.injEq, Prod.mk.injEq] at hp
      obtain ⟨hveq, hdr⟩ := hp
      have h24 : jsTrim s.toList = String.toList "true" ++ r := by
        rw [htrim2, ← htk, ← hdr]
        exact (List.take_append_drop _ _).symm
      have hrnil : r = [] := trimmed_suffix_ws_nil htrim h24 hra
      subst hrnil
      rw [List.append_nil] at h24
      have hsan : sanitizeL s.toList = sanitizeL (String.toList "true") :=
        sanitizeL_congr_trim (by rw [h24]; rfl)
      rw [parseModelJson_as_afterSanitize, hsan, ← hveq]
      rfl
    · exact Option.noConfusion hp
  · have hu : parseV ((('f' : Char) :: r0).length + 2) ('f' :: r0)
        = (if ('f' :: r0).take 5 = String.toList "false"
            then some (JsVal.bool false, ('f' :: r0).drop 5) else none) := rfl
    rw [hu] at hp
    split at hp
    · rename_i htk
      rw [Option.some.injEq, Prod.mk.injEq] at hp
      obtain ⟨hveq, hdr⟩ := hp
      have h24 : jsTrim s.toList = String.toList "false" ++ r := by
        rw [htrim2, ← htk, ← hdr]
        exact (List.take_append_drop _ _).symm
      have hrnil : r = [] := trimmed_suffix_ws_nil htrim h24 hra
      subst hrnil
      rw [List.append_nil] at h24
      have hsan : sanitizeL s.toList = sanitizeL (String.toList "false") :=
        sanitizeL_congr_trim (by rw [h24]; rfl)
      rw [parseModelJson_as_afterSanitize, hsan, ← hveq]
      rfl
    · exact Option.noConfusion hp
  · have hu : parseV ((('n' : Char) :: r0).length + 2) ('n' :: r0)
        = (if ('n' :: r0).take 4 = String.toList "null"
            then some (JsVal.null, ('n' :: r0).drop 4) else none) := rfl
    rw [hu] at hp
    split at hp
    · rename_i htk
      rw [Option.some.injEq, Prod.mk.injEq] at hp
      obtain ⟨hveq, hdr⟩ := hp
      have h24 : jsTrim s.toList = String.toList "null" ++ r := by
        rw [htrim2, ← htk, ← hdr]
        exact (List.take_append_drop _ _).symm
      have hrnil : r = [] := trimmed_suffix_ws_nil htrim h24 hra
      subst hrnil
      rw [List.append_nil] at h24
      have hsan : sanitizeL s.toList = sanitizeL (String.toList "null") :=
        sanitizeL_congr_trim (by rw [h24]; rfl)
      rw [parseModelJson_as_afterSanitize, hsan, ← hveq]
      rfl
    · exact Option.noConfusion hp
  · obtain ⟨q1, q2, hnum, hveq⟩ := parseV_num_head (Or.inl rfl) hp
    have hrnil : r = [] := parseNum_rest_nil hnum htrim' hra
    subst hrnil
    have hb := isBareLiteral_of_parseNum hnum
    subst hveq
    exact sanitize_single_faithful hall hv
      (by rw [htrim2]; exact matchR1_none_head (by decide) (by decide) (by decide))
      (by rw [htrim2]; exact matchR2_none_head (by decide) (by decide))
      (keepLine_of_bare (by rw [htrim, htrim2]; exact hb))
  · have hund : ¬c = '_' := fun he => by rw [he] at hdig; exact absurd hdig (by decide)
    obtain ⟨q1, q2, hnum, hveq⟩ := parseV_num_head (Or.inr hdig) hp
    have hrnil : r = [] := parseNum_rest_nil hnum htrim' hra
    subst hrnil
    have hb := isBareLiteral_of_parseNum hnum
    subst hveq
    exact sanitize_single_faithful hall hv
      (by rw [htrim2]
          exact matchR1_none_head (digit_not_jsws hdig) (digit_not_alpha hdig) hund)
      (by rw [htrim2]
          exact matchR2_none_head (digit_not_jsws hdig) (digit_not_alpha hdig))
      (keepLine_of_bare (by rw [htrim, htrim2]; exact hb))

set_option maxHeartbeats 1000000 in
/-- C2 counterexample: `"[\n1,\nnull\n]"` is well-formed JSON containing no
backtick (so no markdown fencing), yet `parseModelJson` returns absent: the
line filter deletes the bare `null` line, leaving `"[\n1,\n]"`, which neither
the strict parse nor the extracted balanced region parses. -/
theorem C2_counterexample :
    jsonParse "[\n1,\nnull\n]" = some (JsVal.arr [JsVal.num 1 0, JsVal.null] [])
    ∧ (String.toList "[\n1,\nnull\n]").all (fun ch => !(ch = btick)) = true
    ∧ parseModelJson "[\n1,\nnull\n]" = none :=
  ⟨by rfl, by decide, by rfl⟩

set_option maxHeartbeats 1000000 in
theorem C2_witness :
    ("\x7b\"a\":1\x7d".toList.all (fun ch => !isLineTerm ch) = true
      ∧ jsonParse "\x7b\"a\":1\x7d" = some (JsVal.obj [("a", JsVal.num 1 0)]))
    ∧ jsValueOf (parseModelJson "\x7b\"a\":1\x7d")
      = JsVal.obj [("a", JsVal.num 1 0)] :=
  ⟨⟨by decide, by rfl⟩,
   C2_single_line_faithful "\x7b\"a\":1\x7d" (JsVal.obj [("a", JsVal.num 1 0)])
     (by decide) (by rfl)⟩
